import Mathlib

/-!
# Verification of the pluggable scheduling engine (`src/pa2.c`)

A shallow embedding of the scheduling/resource-contention engine.  The data
model (process, resource, ready queue) follows the spec's §3 data model; the
policy operations (`fcfs_*`, `sjf_schedule`, `stcf_schedule`, `rr_schedule`,
`prio_*`, `pa_*`, `pcp_*`) are translated statement by statement from
`src/pa2.c`.  Intrusive `list_head` queues are modelled as Lean lists of pids
over an explicit process table; `list_add` is head insertion, `list_add_tail`
is appending, `list_del_init` removes the (unique) node, `list_move_tail`
removes and appends.  C functions that dereference the global `current`
pointer or that `assert` return `Option` results: `none` models the crash /
assertion failure on states that violate the preconditions.
-/

namespace Sched

/-- Modelled from the spec (§3): process status, one of READY / RUNNING /
BLOCKED (`PROCESS_READY`, `PROCESS_RUNNING`, `PROCESS_BLOCKED`). -/
inductive Status where
  | READY
  | RUNNING
  | BLOCKED
deriving DecidableEq

/-- Modelled from the spec (§3): the process record.  `process.h` is not part
of `src/`; the fields are the ones the spec lists (`pid`, `status`, `age`,
`lifespan`, `prio`, `prio_orig`).  The intrusive `list` link is replaced by
explicit pid-list queues in `State`. -/
structure Process where
  pid : Nat
  status : Status
  age : Nat
  lifespan : Nat
  prio : Nat
  prio_orig : Nat
deriving DecidableEq

/-- Modelled from the spec (§3): the resource record, an owner slot (pid of the
owning process, `none` = free) and the wait queue of blocked processes. -/
structure Resource where
  owner : Option Nat
  waitqueue : List Nat
deriving DecidableEq

/-- Modelled from the spec (§§3,6): the shared simulation state the policy
callbacks mutate: the process table, the `current` pointer (pid of the
running process), the ready queue, and the fixed resource array. -/
structure State where
  procs : List Process
  current : Option Nat
  readyqueue : List Nat
  resources : List Resource
deriving DecidableEq

/-- Placeholder record returned when a pid is not in the process table
(a dangling pointer in the C program; never reached under the theorems'
hypotheses). -/
def dummyProc : Process :=
  { pid := 0, status := Status.READY, age := 0, lifespan := 0, prio := 0, prio_orig := 0 }

/-- Look a process up in the process table by pid. -/
def State.proc (s : State) (i : Nat) : Option Process :=
  s.procs.find? (fun p => p.pid == i)

/-- Dereference a pid (total version of `State.proc`). -/
def State.procD (s : State) (i : Nat) : Process :=
  (s.proc i).getD dummyProc

/-- In-place mutation of the process record with pid `i` (a store through a
`struct process *`). -/
def State.updProc (s : State) (i : Nat) (f : Process → Process) : State :=
  { s with procs := s.procs.map (fun p => if p.pid == i then f p else p) }

/-- Apply `f` to the `i`-th element of a list, leaving the list unchanged when
`i` is out of range. -/
def listModify {α : Type} (l : List α) (i : Nat) (f : α → α) : List α :=
  match l, i with
  | [], _ => []
  | x :: xs, 0 => f x :: xs
  | x :: xs, n + 1 => x :: listModify xs n f

/-- `resources + resource_id`: read the resource record. -/
def State.res (s : State) (i : Nat) : Option Resource :=
  s.resources.get? i

/-- In-place mutation of resource `i`. -/
def State.updRes (s : State) (i : Nat) (f : Resource → Resource) : State :=
  { s with resources := listModify s.resources i f }

/-- Modelled from the spec (§6): the system maximum priority constant
`MAX_PRIO` used by the priority-ceiling protocol.  Its numeric value is not
given in `src/` (it lives in the missing header); the theorems only use it
symbolically. -/
def maxPrio : Nat := 140

/-! ## Default FCFS resource discipline (`fcfs_acquire`, `fcfs_release`) -/

/-- `fcfs_acquire` from `src/pa2.c`: if the resource is free take it, else
mark `current` BLOCKED and append it to the tail of the wait queue.  `none`
models the crash on a NULL `current` or an out-of-range resource id. -/
def fcfs_acquire (s : State) (rid : Nat) : Option (Bool × State) :=
  match s.current, s.res rid with
  | some c, some r =>
      match r.owner with
      | none =>
          some (true, s.updRes rid (fun x => { x with owner := some c }))
      | some _ =>
          let s1 := s.updProc c (fun p => { p with status := Status.BLOCKED })
          let s2 := s1.updRes rid (fun x => { x with waitqueue := x.waitqueue ++ [c] })
          some (false, s2)
  | _, _ => none

/-- `fcfs_release` from `src/pa2.c`: assert ownership, clear the owner, and if
the wait queue is non-empty wake its first entry: assert it is BLOCKED,
detach it, mark it READY and append it to the ready queue tail.  `none`
models the assertion failures. -/
def fcfs_release (s : State) (rid : Nat) : Option State :=
  match s.current, s.res rid with
  | some c, some r =>
      if r.owner = some c then
        let s1 := s.updRes rid (fun x => { x with owner := none })
        match r.waitqueue with
        | [] => some s1
        | w :: ws =>
            if (s1.procD w).status = Status.BLOCKED then
              let s2 := s1.updRes rid (fun x => { x with waitqueue := ws })
              let s3 := s2.updProc w (fun p => { p with status := Status.READY })
              some { s3 with readyqueue := s3.readyqueue ++ [w] }
            else none
      else none
  | _, _ => none

/-! ## FCFS scheduler -/

/-- The shared `pick_next` block of `fcfs_schedule`: pop the head of the ready
queue (or return `none` on an empty queue). -/
def fcfs_pick_next (s : State) : Option Nat × State :=
  match s.readyqueue with
  | [] => (none, s)
  | n :: rest => (some n, { s with readyqueue := rest })

/-- `fcfs_schedule` from `src/pa2.c`: with no current process or a BLOCKED
current process pick the ready-queue head; a current process with remaining
lifetime is returned unchanged; an exhausted one falls through to the pick. -/
def fcfs_schedule (s : State) : Option Nat × State :=
  match s.current with
  | none => fcfs_pick_next s
  | some c =>
      if (s.procD c).status = Status.BLOCKED then fcfs_pick_next s
      else if (s.procD c).age < (s.procD c).lifespan then (some c, s)
      else fcfs_pick_next s

/-! ## Scan loops (`list_for_each_entry` over a queue keeping the best entry) -/

/-- The `list_for_each_entry` loop pattern `if (g x < g best) best = x` (used
by SJF/STCF picks): keep the first entry with the strictly smallest key. -/
def scanMin (g : Nat → Nat) (n : Nat) : List Nat → Nat
  | [] => n
  | x :: xs => if g x < g n then scanMin g x xs else scanMin g n xs

/-- The `list_for_each_entry` loop pattern `if (g x > g best) best = x` (used
by the priority policies): keep the first entry with the strictly largest
key. -/
def scanMax (g : Nat → Nat) (n : Nat) : List Nat → Nat
  | [] => n
  | x :: xs => if g x > g n then scanMax g x xs else scanMax g n xs

/-! ## SJF scheduler -/

/-- The `pick_next` block of `sjf_schedule`: start from the ready-queue head,
scan the whole queue keeping the entry with the strictly smaller total
`lifespan`, and detach it. -/
def sjf_pick_next (s : State) : Option Nat × State :=
  match s.readyqueue with
  | [] => (none, s)
  | h :: t =>
      let n := scanMin (fun i => (s.procD i).lifespan) h (h :: t)
      (some n, { s with readyqueue := s.readyqueue.erase n })

/-- `sjf_schedule` from `src/pa2.c`: same continuation rule as FCFS; fresh
picks take the smallest total lifespan (first occurrence wins). -/
def sjf_schedule (s : State) : Option Nat × State :=
  match s.current with
  | none => sjf_pick_next s
  | some c =>
      if (s.procD c).status = Status.BLOCKED then sjf_pick_next s
      else if (s.procD c).age < (s.procD c).lifespan then (some c, s)
      else sjf_pick_next s

/-! ## STCF scheduler -/

/-- The preemption scan inside `stcf_schedule`: walk the ready queue and stop
at the first entry whose remaining time (`lifespan - age`) is strictly
smaller than the running process's remaining time. -/
def stcf_preempt_scan (s : State) (c : Process) : List Nat → Option Nat
  | [] => none
  | x :: xs =>
      if c.lifespan - c.age > (s.procD x).lifespan - (s.procD x).age then some x
      else stcf_preempt_scan s c xs

/-- The `pick_next` block of `stcf_schedule` (textually the same scan as the
SJF pick: smallest total lifespan, first occurrence wins). -/
def stcf_pick_next (s : State) : Option Nat × State :=
  match s.readyqueue with
  | [] => (none, s)
  | h :: t =>
      let n := scanMin (fun i => (s.procD i).lifespan) h (h :: t)
      (some n, { s with readyqueue := s.readyqueue.erase n })

/-- `stcf_schedule` from `src/pa2.c`.  While the current process has remaining
lifetime, the ready queue is scanned for the first entry with strictly
smaller remaining time; on a hit the code marks that entry `PROCESS_READY`,
inserts the current process at the *head* of the ready queue (`list_add`),
marks the current process `PROCESS_BLOCKED`, reassigns `current`, detaches
the entry, and returns it. -/
def stcf_schedule (s : State) : Option Nat × State :=
  match s.current with
  | none => stcf_pick_next s
  | some c =>
      if (s.procD c).status = Status.BLOCKED then stcf_pick_next s
      else if (s.procD c).age < (s.procD c).lifespan then
        match stcf_preempt_scan s (s.procD c) s.readyqueue with
        | none => (some c, s)
        | some n =>
            let s1 := s.updProc n (fun p => { p with status := Status.READY })
            let s2 := { s1 with readyqueue := c :: s1.readyqueue }
            let s3 := s2.updProc c (fun p => { p with status := Status.BLOCKED })
            let s4 := { s3 with readyqueue := s3.readyqueue.erase n, current := some n }
            (some n, s4)
      else stcf_pick_next s

/-! ## Round-robin scheduler -/

/-- The `pick_next` block of `rr_schedule`: pop the ready-queue head. -/
def rr_pick_next (s : State) : Option Nat × State :=
  match s.readyqueue with
  | [] => (none, s)
  | n :: rest => (some n, { s with readyqueue := rest })

/-- `rr_schedule` from `src/pa2.c`: a current process with remaining lifetime
is moved to the ready-queue tail (`list_move_tail`) and a fresh head pick is
forced. -/
def rr_schedule (s : State) : Option Nat × State :=
  match s.current with
  | none => rr_pick_next s
  | some c =>
      if (s.procD c).status = Status.BLOCKED then rr_pick_next s
      else if (s.procD c).age < (s.procD c).lifespan then
        rr_pick_next { s with readyqueue := s.readyqueue.erase c ++ [c] }
      else rr_pick_next s

/-! ## Priority scheduler -/

/-- `prio_acquire` from `src/pa2.c` (same body as `fcfs_acquire`). -/
def prio_acquire (s : State) (rid : Nat) : Option (Bool × State) :=
  match s.current, s.res rid with
  | some c, some r =>
      match r.owner with
      | none =>
          some (true, s.updRes rid (fun x => { x with owner := some c }))
      | some _ =>
          let s1 := s.updProc c (fun p => { p with status := Status.BLOCKED })
          let s2 := s1.updRes rid (fun x => { x with waitqueue := x.waitqueue ++ [c] })
          some (false, s2)
  | _, _ => none

/-- `prio_release` from `src/pa2.c`: assert ownership, clear the owner, and on
a non-empty wait queue scan it from the first entry keeping the entry with
the strictly larger `prio` (first maximum wins), assert it is BLOCKED,
detach it, mark it READY and append it to the ready-queue tail. -/
def prio_release (s : State) (rid : Nat) : Option State :=
  match s.current, s.res rid with
  | some c, some r =>
      if r.owner = some c then
        let s1 := s.updRes rid (fun x => { x with owner := none })
        match r.waitqueue with
        | [] => some s1
        | h :: t =>
            let w := scanMax (fun i => (s1.procD i).prio) h (h :: t)
            if (s1.procD w).status = Status.BLOCKED then
              let s2 := s1.updRes rid (fun x => { x with waitqueue := x.waitqueue.erase w })
              let s3 := s2.updProc w (fun p => { p with status := Status.READY })
              some { s3 with readyqueue := s3.readyqueue ++ [w] }
            else none
      else none
  | _, _ => none

/-- The `list_for_each_entry` loop in the continuation branch of
`prio_schedule`: walk the ready queue; on the first entry whose pid differs
from the running process's pid, insert the running process at the queue head
(`list_add`) and jump to `pick_next` (result `true`); on an entry with the
same pid the source `list_del_init`s that node and keeps walking (with pids
unique this arm only triggers when the running process itself sits in the
ready queue, where the C loop would then spin on the detached node; the
theorems below exclude that state).  Falling off the loop returns the
running process (result `false`). -/
def prio_cont (c : Nat) : List Nat → List Nat → Bool × List Nat
  | acc, [] => (false, acc.reverse)
  | acc, t :: rest =>
      if c ≠ t then (true, c :: (acc.reverse ++ t :: rest))
      else prio_cont c acc rest

/-- The `pick_next` block of `prio_schedule`: scan the ready queue from its
head keeping the entry with the strictly larger `prio`, and detach it. -/
def prio_pick_next (s : State) : Option Nat × State :=
  match s.readyqueue with
  | [] => (none, s)
  | h :: t =>
      let n := scanMax (fun i => (s.procD i).prio) h (h :: t)
      (some n, { s with readyqueue := s.readyqueue.erase n })

/-- `prio_schedule` from `src/pa2.c`. -/
def prio_schedule (s : State) : Option Nat × State :=
  match s.current with
  | none => prio_pick_next s
  | some c =>
      if (s.procD c).status = Status.BLOCKED then prio_pick_next s
      else if (s.procD c).age < (s.procD c).lifespan then
        match prio_cont c [] s.readyqueue with
        | (true, rq) => prio_pick_next { s with readyqueue := rq }
        | (false, rq) => (some c, { s with readyqueue := rq })
      else prio_pick_next s

/-! ## Priority + aging scheduler -/

/-- `pa_acquire` from `src/pa2.c` (same body as `fcfs_acquire`). -/
def pa_acquire (s : State) (rid : Nat) : Option (Bool × State) :=
  match s.current, s.res rid with
  | some c, some r =>
      match r.owner with
      | none =>
          some (true, s.updRes rid (fun x => { x with owner := some c }))
      | some _ =>
          let s1 := s.updProc c (fun p => { p with status := Status.BLOCKED })
          let s2 := s1.updRes rid (fun x => { x with waitqueue := x.waitqueue ++ [c] })
          some (false, s2)
  | _, _ => none

/-- `pa_release` from `src/pa2.c` (same body as `prio_release`). -/
def pa_release (s : State) (rid : Nat) : Option State :=
  match s.current, s.res rid with
  | some c, some r =>
      if r.owner = some c then
        let s1 := s.updRes rid (fun x => { x with owner := none })
        match r.waitqueue with
        | [] => some s1
        | h :: t =>
            let w := scanMax (fun i => (s1.procD i).prio) h (h :: t)
            if (s1.procD w).status = Status.BLOCKED then
              let s2 := s1.updRes rid (fun x => { x with waitqueue := x.waitqueue.erase w })
              let s3 := s2.updProc w (fun p => { p with status := Status.READY })
              some { s3 with readyqueue := s3.readyqueue ++ [w] }
            else none
      else none
  | _, _ => none

/-- The aging loop of `pa_schedule`: `tmp->prio++` for every member of the
ready queue (the running process is not in the ready queue). -/
def pa_age (s : State) : State :=
  { s with
    procs := s.procs.map (fun p => if s.readyqueue.contains p.pid then { p with prio := p.prio + 1 } else p) }

/-- The `pick_next` block of `pa_schedule`: the max-`prio` scan (first maximum
wins), then `next->prio = next->prio_orig`, then detach. -/
def pa_pick_next (s : State) : Option Nat × State :=
  match s.readyqueue with
  | [] => (none, s)
  | h :: t =>
      let n := scanMax (fun i => (s.procD i).prio) h (h :: t)
      let s1 := s.updProc n (fun p => { p with prio := p.prio_orig })
      (some n, { s1 with readyqueue := s1.readyqueue.erase n })

/-- `pa_schedule` from `src/pa2.c`.  Note the control flow: with no current
process or a BLOCKED current process the code jumps straight to `pick_next`,
*skipping* the aging loop; otherwise every ready process is aged, and a
current process with remaining lifetime is moved to the ready-queue tail
before the pick. -/
def pa_schedule (s : State) : Option Nat × State :=
  match s.current with
  | none => pa_pick_next s
  | some c =>
      if (s.procD c).status = Status.BLOCKED then pa_pick_next s
      else
        let s1 := pa_age s
        if (s1.procD c).age < (s1.procD c).lifespan then
          pa_pick_next { s1 with readyqueue := s1.readyqueue.erase c ++ [c] }
        else pa_pick_next s1

/-! ## Priority ceiling protocol scheduler -/

/-- `pcp_acquire` from `src/pa2.c`: on a free resource the new owner's `prio`
is immediately raised to `MAX_PRIO`; otherwise block as in FCFS. -/
def pcp_acquire (s : State) (rid : Nat) : Option (Bool × State) :=
  match s.current, s.res rid with
  | some c, some r =>
      match r.owner with
      | none =>
          let s1 := s.updRes rid (fun x => { x with owner := some c })
          let s2 := s1.updProc c (fun p => { p with prio := maxPrio })
          some (true, s2)
      | some _ =>
          let s1 := s.updProc c (fun p => { p with status := Status.BLOCKED })
          let s2 := s1.updRes rid (fun x => { x with waitqueue := x.waitqueue ++ [c] })
          some (false, s2)
  | _, _ => none

/-- `pcp_release` from `src/pa2.c`: assert ownership, restore the releasing
process's `prio` to `prio_orig`, clear the owner, then wake the max-`prio`
waiter exactly as `prio_release` does. -/
def pcp_release (s : State) (rid : Nat) : Option State :=
  match s.current, s.res rid with
  | some c, some r =>
      if r.owner = some c then
        let s0 := s.updProc c (fun p => { p with prio := p.prio_orig })
        let s1 := s0.updRes rid (fun x => { x with owner := none })
        match r.waitqueue with
        | [] => some s1
        | h :: t =>
            let w := scanMax (fun i => (s1.procD i).prio) h (h :: t)
            if (s1.procD w).status = Status.BLOCKED then
              let s2 := s1.updRes rid (fun x => { x with waitqueue := x.waitqueue.erase w })
              let s3 := s2.updProc w (fun p => { p with status := Status.READY })
              some { s3 with readyqueue := s3.readyqueue ++ [w] }
            else none
      else none
  | _, _ => none

/-- The `pick_next` block of `pcp_schedule`: the max-`prio` scan (no
`prio_orig` reset here), then detach. -/
def pcp_pick_next (s : State) : Option Nat × State :=
  match s.readyqueue with
  | [] => (none, s)
  | h :: t =>
      let n := scanMax (fun i => (s.procD i).prio) h (h :: t)
      (some n, { s with readyqueue := s.readyqueue.erase n })

/-- `pcp_schedule` from `src/pa2.c`: tail-requeue of a still-live current
process, then the max-`prio` pick. -/
def pcp_schedule (s : State) : Option Nat × State :=
  match s.current with
  | none => pcp_pick_next s
  | some c =>
      if (s.procD c).status = Status.BLOCKED then pcp_pick_next s
      else if (s.procD c).age < (s.procD c).lifespan then
        pcp_pick_next { s with readyqueue := s.readyqueue.erase c ++ [c] }
      else pcp_pick_next s

/-! ## The external driver (not part of `src/`) -/

/-- Modelled from the spec (§§2,4): after `schedule` returns, the driver makes
the returned process the running one (`current`). -/
def schedStep (sched : State → Option Nat × State) (s : State) : State :=
  let r := sched s
  { r.2 with current := r.1 }

/-- Modelled from the spec (§§2,3): one driver tick.  The driver invokes the
policy's `schedule`, executes the returned process for one tick (its `age`
increments), and retires it (clears `current`) once `age` reaches
`lifespan`; with no runnable process the tick is idle.  The tick returns the
pid that ran. -/
def driverTick (sched : State → Option Nat × State) (s : State) : Option Nat × State :=
  match sched s with
  | (none, s1) => (none, { s1 with current := none })
  | (some n, s1) =>
      let s2 := s1.updProc n (fun p => { p with age := p.age + 1 })
      if (s2.procD n).lifespan ≤ (s2.procD n).age then (some n, { s2 with current := none })
      else (some n, { s2 with current := some n })

/-- Modelled from the spec (§2): run `k` driver ticks, collecting the pid that
ran at each tick. -/
def driverRun (sched : State → Option Nat × State) (s : State) : Nat → List (Option Nat) × State
  | 0 => ([], s)
  | k + 1 =>
      let r := driverTick sched s
      let rest := driverRun sched r.2 k
      (r.1 :: rest.1, rest.2)

/-- Modelled from the spec (§3): process creation by the external driver —
a newly forked process enters the process table and the ready-queue tail. -/
def fork (s : State) (p : Process) : State :=
  { s with procs := s.procs ++ [p], readyqueue := s.readyqueue ++ [p.pid] }

/-! ## Queue-membership invariant -/

/-- Total number of wait-queue positions pid `p` occupies. -/
def wqCount (s : State) (p : Nat) : Nat :=
  (s.resources.map (fun r => r.waitqueue.count p)).sum

/-- Total number of queue positions (ready queue plus all wait queues) pid `p`
occupies. -/
def occCount (s : State) (p : Nat) : Nat :=
  s.readyqueue.count p + wqCount s p

/-- The queue-membership invariant: every queued process occupies at most one
queue position in the whole system, and the running process (while not
marked BLOCKED) occupies none. -/
def QueueOk (s : State) : Prop :=
  (∀ p ∈ s.readyqueue, occCount s p ≤ 1) ∧
  (∀ r ∈ s.resources, ∀ p ∈ r.waitqueue, occCount s p ≤ 1) ∧
  (∀ c ∈ s.current.toList, (s.procD c).status ≠ Status.BLOCKED → occCount s c = 0)

instance decQueueOk (s : State) : Decidable (QueueOk s) := by
  unfold QueueOk
  infer_instance

/-- The wake step shared by the priority-ordered releases, applied to the
state reached after ownership is cleared: detach waiter `w` from resource
`rid`'s wait queue, mark it READY, and append it to the ready-queue tail. -/
def wakeState (s : State) (rid w : Nat) : State :=
  let s2 := s.updRes rid (fun x => { x with waitqueue := x.waitqueue.erase w })
  let s3 := s2.updProc w (fun p => { p with status := Status.READY })
  { s3 with readyqueue := s3.readyqueue ++ [w] }

/-- Frame condition for a release on an empty wait queue: ownership cleared,
the ready queue, all wait queues and all process statuses unchanged. -/
def releaseFrame (s s' : State) (rid : Nat) (r : Resource) : Prop :=
  s'.readyqueue = s.readyqueue ∧
  s'.current = s.current ∧
  (s'.res rid).map Resource.owner = some none ∧
  (s'.res rid).map Resource.waitqueue = some r.waitqueue ∧
  (∀ j, j ≠ rid → s'.res j = s.res j) ∧
  (∀ j, (s'.procD j).status = (s.procD j).status)

/-! ## Concrete states for the closed theorems -/

/-- A READY process with age 0, for building example states. -/
def mkReady (i l pr po : Nat) : Process :=
  { pid := i, status := Status.READY, age := 0, lifespan := l, prio := pr, prio_orig := po }

/-- Ready processes with lifespans [5, 3, 3, 8] in queue order (spec §8's SJF
tie-break example). -/
def sjfExample : State :=
  { procs := [mkReady 1 5 0 0, mkReady 2 3 0 0, mkReady 3 3 0 0, mkReady 4 8 0 0],
    current := none, readyqueue := [1, 2, 3, 4], resources := [] }

/-- A running process (pid 1, age 2, lifespan 5) with one ready process. -/
def runExample : State :=
  { procs := [{ mkReady 1 5 0 0 with status := Status.RUNNING, age := 2 }, mkReady 2 3 0 0],
    current := some 1, readyqueue := [2], resources := [] }

/-- Three processes of lifespan 3 queued in order P1, P2, P3, no current
process (spec §8's RR quantum example). -/
def rrExample : State :=
  { procs := [mkReady 1 3 0 0, mkReady 2 3 0 0, mkReady 3 3 0 0],
    current := none, readyqueue := [1, 2, 3], resources := [] }

/-- A running process (pid 9, baseline priority 2) and two free resources. -/
def pcpExample : State :=
  { procs := [{ mkReady 9 5 2 2 with status := Status.RUNNING }],
    current := some 9, readyqueue := [],
    resources := [{ owner := none, waitqueue := [] }, { owner := none, waitqueue := [] }] }

/-- Pid 9, priority raised to the ceiling, owning both resources. -/
def pcpOwnsTwo : State :=
  { procs := [{ mkReady 9 5 maxPrio 2 with status := Status.RUNNING }],
    current := some 9, readyqueue := [],
    resources := [{ owner := some 9, waitqueue := [] }, { owner := some 9, waitqueue := [] }] }

/-- STCF example: pid 1 running (remaining time 8), pids 2 and 3 ready with
remaining times 2 and 3. -/
def stcfCex : State :=
  { procs := [{ mkReady 1 9 0 0 with status := Status.RUNNING, age := 1 },
      mkReady 2 2 0 0, mkReady 3 3 0 0],
    current := some 1, readyqueue := [2, 3], resources := [] }

/-- Aging example: no current process, ready pids [1, 2] with priorities
[5, 3] and baseline priorities [1, 2]. -/
def paCex : State :=
  { procs := [mkReady 1 5 5 1, mkReady 2 5 3 2],
    current := none, readyqueue := [1, 2], resources := [] }

/-- Aging example with a running process: pid 9 running (priority 7), ready
pids [1, 2] with priorities [5, 3]. -/
def paRun : State :=
  { procs := [{ mkReady 9 5 7 7 with status := Status.RUNNING },
      mkReady 1 5 5 1, mkReady 2 5 3 2],
    current := some 9, readyqueue := [1, 2], resources := [] }

/-- A resource owner (pid 9) with waiters of priorities [2, 5, 3] blocked in
that order (spec §8's priority wake-order example). -/
def wakeExample : State :=
  { procs := [{ mkReady 9 5 1 1 with status := Status.RUNNING },
      { mkReady 1 5 2 2 with status := Status.BLOCKED },
      { mkReady 2 5 5 5 with status := Status.BLOCKED },
      { mkReady 3 5 3 3 with status := Status.BLOCKED }],
    current := some 9, readyqueue := [],
    resources := [{ owner := some 9, waitqueue := [1, 2, 3] }] }

/-- A reachable-trace start state for STCF: one ready process (pid 1,
lifespan 4) and one free resource. -/
def c3s0 : State :=
  { procs := [mkReady 1 4 0 0], current := none, readyqueue := [1],
    resources := [{ owner := none, waitqueue := [] }] }

/-- After one driver tick of STCF on `c3s0` and a fork of pid 2
(lifespan 2, so its remaining time undercuts pid 1's). -/
def c3s2 : State :=
  fork (driverTick stcf_schedule c3s0).2 (mkReady 2 2 0 0)

/-- The state after the next STCF schedule call on `c3s2`, in which
preemption fires. -/
def c3s3 : State :=
  (stcf_schedule c3s2).2

end Sched

namespace Sched

/-! ## Helper lemmas: process table -/

theorem find?_map_pid (l : List Process) (i : Nat) (f : Process → Process)
    (hf : ∀ p, (f p).pid = p.pid) :
    (l.map (fun p => if p.pid == i then f p else p)).find? (fun p => p.pid == i)
      = (l.find? (fun p => p.pid == i)).map f := by
  induction l with
  | nil => rfl
  | cons a l ih =>
    by_cases h : a.pid = i
    · have h1 : (if (a.pid == i) = true then f a else a) = f a := by simp [h]
      rw [List.map_cons, h1, List.find?_cons_of_pos _ (by simp [hf, h]),
        List.find?_cons_of_pos _ (by simp [h])]
      simp
    · have h1 : (if (a.pid == i) = true then f a else a) = a := by simp [h]
      rw [List.map_cons, h1, List.find?_cons_of_neg _ (by simp [h]),
        List.find?_cons_of_neg _ (by simp [h])]
      exact ih

theorem find?_map_pid_ne (l : List Process) (i j : Nat) (f : Process → Process)
    (hf : ∀ p, (f p).pid = p.pid) (h : j ≠ i) :
    (l.map (fun p => if p.pid == i then f p else p)).find? (fun p => p.pid == j)
      = l.find? (fun p => p.pid == j) := by
  induction l with
  | nil => rfl
  | cons a l ih =>
    by_cases hi : a.pid = i
    · have h1 : (if (a.pid == i) = true then f a else a) = f a := by simp [hi]
      have hj : a.pid ≠ j := by rw [hi]; exact Ne.symm h
      rw [List.map_cons, h1, List.find?_cons_of_neg _ (by simp [hf, hj]),
        List.find?_cons_of_neg _ (by simp [hj])]
      exact ih
    · have h1 : (if (a.pid == i) = true then f a else a) = a := by simp [hi]
      by_cases hj : a.pid = j
      · rw [List.map_cons, h1, List.find?_cons_of_pos _ (by simp [hj]),
          List.find?_cons_of_pos _ (by simp [hj])]
      · rw [List.map_cons, h1, List.find?_cons_of_neg _ (by simp [hj]),
          List.find?_cons_of_neg _ (by simp [hj])]
        exact ih

theorem proc_updProc_self (s : State) (i : Nat) (f : Process → Process)
    (hf : ∀ p, (f p).pid = p.pid) :
    (s.updProc i f).proc i = (s.proc i).map f :=
  find?_map_pid s.procs i f hf

theorem proc_updProc_ne (s : State) (i j : Nat) (f : Process → Process)
    (hf : ∀ p, (f p).pid = p.pid) (h : j ≠ i) :
    (s.updProc i f).proc j = s.proc j :=
  find?_map_pid_ne s.procs i j f hf h

theorem procD_updProc_self (s : State) (i : Nat) (f : Process → Process)
    (hf : ∀ p, (f p).pid = p.pid) (hs : (s.proc i).isSome) :
    (s.updProc i f).procD i = f (s.procD i) := by
  unfold State.procD
  rw [proc_updProc_self s i f hf]
  cases hp : s.proc i with
  | none => rw [hp] at hs; simp at hs
  | some p => simp

theorem procD_updProc_ne (s : State) (i j : Nat) (f : Process → Process)
    (hf : ∀ p, (f p).pid = p.pid) (h : j ≠ i) :
    (s.updProc i f).procD j = s.procD j := by
  unfold State.procD
  rw [proc_updProc_ne s i j f hf h]

theorem updProc_readyqueue (s : State) (i : Nat) (f : Process → Process) :
    (s.updProc i f).readyqueue = s.readyqueue := rfl

theorem updProc_current (s : State) (i : Nat) (f : Process → Process) :
    (s.updProc i f).current = s.current := rfl

theorem updProc_resources (s : State) (i : Nat) (f : Process → Process) :
    (s.updProc i f).resources = s.resources := rfl

theorem updRes_readyqueue (s : State) (rid : Nat) (f : Resource → Resource) :
    (s.updRes rid f).readyqueue = s.readyqueue := rfl

theorem updRes_current (s : State) (rid : Nat) (f : Resource → Resource) :
    (s.updRes rid f).current = s.current := rfl

theorem proc_updRes (s : State) (rid : Nat) (f : Resource → Resource) (i : Nat) :
    (s.updRes rid f).proc i = s.proc i := rfl

theorem procD_updRes (s : State) (rid : Nat) (f : Resource → Resource) (i : Nat) :
    (s.updRes rid f).procD i = s.procD i := rfl

/-! ## Helper lemmas: resource array -/

theorem listModify_get?_self {α : Type} (l : List α) (i : Nat) (f : α → α) :
    (listModify l i f).get? i = (l.get? i).map f := by
  induction l generalizing i with
  | nil => simp [listModify]
  | cons a l ih =>
    cases i with
    | zero => simp [listModify]
    | succ k => simpa [listModify] using ih k

theorem listModify_get?_ne {α : Type} (l : List α) (i j : Nat) (f : α → α) (h : j ≠ i) :
    (listModify l i f).get? j = l.get? j := by
  induction l generalizing i j with
  | nil => simp [listModify]
  | cons a l ih =>
    cases i with
    | zero =>
      cases j with
      | zero => exact absurd rfl h
      | succ m => simp [listModify]
    | succ k =>
      cases j with
      | zero => simp [listModify]
      | succ m =>
        have : m ≠ k := fun hc => h (by rw [hc])
        simpa [listModify] using ih k m this

theorem res_updRes_self (s : State) (rid : Nat) (f : Resource → Resource) (r : Resource)
    (h : s.res rid = some r) :
    (s.updRes rid f).res rid = some (f r) := by
  unfold State.res State.updRes at *
  simp only [listModify_get?_self, h, Option.map_some']

theorem res_updRes_ne (s : State) (rid j : Nat) (f : Resource → Resource) (h : j ≠ rid) :
    (s.updRes rid f).res j = s.res j :=
  listModify_get?_ne s.resources rid j f h

theorem sum_map_listModify {α : Type} (g : α → Nat) (l : List α) (i : Nat) (f : α → α)
    (r : α) (h : l.get? i = some r) :
    ((listModify l i f).map g).sum + g r = (l.map g).sum + g (f r) := by
  induction l generalizing i with
  | nil => simp at h
  | cons a l ih =>
    cases i with
    | zero =>
      simp only [List.get?] at h
      cases h
      simp [listModify]
      omega
    | succ k =>
      simp only [List.get?] at h
      have := ih k h
      simp only [listModify, List.map_cons, List.sum_cons]
      omega

theorem wqCount_updRes (s : State) (rid : Nat) (f : Resource → Resource) (r : Resource)
    (h : s.res rid = some r) (p : Nat) :
    wqCount (s.updRes rid f) p + r.waitqueue.count p
      = wqCount s p + (f r).waitqueue.count p :=
  sum_map_listModify (fun x => x.waitqueue.count p) s.resources rid f r h

theorem wqCount_set_ready (s : State) (rq : List Nat) (p : Nat) :
    wqCount { s with readyqueue := rq } p = wqCount s p := rfl

theorem wqCount_updProc (s : State) (i : Nat) (f : Process → Process) (p : Nat) :
    wqCount (s.updProc i f) p = wqCount s p := rfl

theorem wqCount_set_current (s : State) (c : Option Nat) (p : Nat) :
    wqCount { s with current := c } p = wqCount s p := rfl

theorem wqCount_pos_mem (s : State) (p : Nat) (h : 0 < wqCount s p) :
    ∃ r ∈ s.resources, p ∈ r.waitqueue := by
  by_contra hc
  push_neg at hc
  have hz : wqCount s p = 0 := by
    unfold wqCount
    apply List.sum_eq_zero
    intro x hx
    rcases List.mem_map.mp hx with ⟨r, hr, hrx⟩
    have : p ∉ r.waitqueue := hc r hr
    simp [← hrx, List.count_eq_zero.mpr this]
  omega

theorem QueueOk.occ_le {s : State} (h : QueueOk s) (p : Nat) : occCount s p ≤ 1 := by
  by_cases hr : p ∈ s.readyqueue
  · exact h.1 p hr
  · by_cases hw : 0 < wqCount s p
    · rcases wqCount_pos_mem s p hw with ⟨r, hmem, hpw⟩
      exact h.2.1 r hmem p hpw
    · unfold occCount
      have h1 : s.readyqueue.count p = 0 := List.count_eq_zero.mpr hr
      omega

theorem QueueOk.cur_zero {s : State} (h : QueueOk s) {c : Nat} (hc : s.current = some c)
    (hb : (s.procD c).status ≠ Status.BLOCKED) : occCount s c = 0 := by
  refine h.2.2 c ?_ hb
  simp [hc]

/-! ## Helper lemmas: the scan loops -/

theorem scanMin_mem (g : Nat → Nat) (n : Nat) (l : List Nat) : scanMin g n l ∈ n :: l := by
  induction l generalizing n with
  | nil => simp [scanMin]
  | cons x xs ih =>
    rw [scanMin]
    split
    · have := ih x
      simp only [List.mem_cons] at this ⊢
      tauto
    · have := ih n
      simp only [List.mem_cons] at this ⊢
      tauto

theorem scanMin_le (g : Nat → Nat) (n : Nat) (l : List Nat) :
    ∀ x ∈ n :: l, g (scanMin g n l) ≤ g x := by
  induction l generalizing n with
  | nil => simp [scanMin]
  | cons x xs ih =>
    intro y hy
    rw [scanMin]
    by_cases hlt : g x < g n
    · rw [if_pos hlt]
      rcases List.mem_cons.mp hy with h | h
      · rw [h]
        exact le_trans (ih x x (by simp)) (le_of_lt hlt)
      · exact ih x y h
    · rw [if_neg hlt]
      rcases List.mem_cons.mp hy with h | h
      · rw [h]
        exact ih n n (by simp)
      · rcases List.mem_cons.mp h with h' | h'
        · rw [h']
          exact le_trans (ih n n (by simp)) (by omega)
        · exact ih n y (List.mem_cons_of_mem n h')

theorem scanMin_split (g : Nat → Nat) (n : Nat) (l : List Nat) :
    ∃ u v, n :: l = u ++ scanMin g n l :: v ∧
      ∀ x ∈ u, g (scanMin g n l) < g x := by
  induction l generalizing n with
  | nil => exact ⟨[], [], rfl, by simp⟩
  | cons x xs ih =>
    rw [scanMin]
    split
    · rename_i hlt
      rcases ih x with ⟨u, v, hsplit, hu⟩
      refine ⟨n :: u, v, by rw [List.cons_append, ← hsplit], ?_⟩
      intro y hy
      rcases List.mem_cons.mp hy with h | h
      · subst h
        exact lt_of_le_of_lt (scanMin_le g x xs x (by simp)) hlt
      · exact hu y h
    · rename_i hge
      rcases ih n with ⟨u, v, hsplit, hu⟩
      cases u with
      | nil =>
        simp only [List.nil_append] at hsplit
        have hn : scanMin g n xs = n := by
          have := congrArg (fun t => t.head?) hsplit
          simpa using this.symm
        refine ⟨[], x :: xs, by simp [hn], by simp⟩
      | cons a u' =>
        simp only [List.cons_append] at hsplit
        have ha : a = n := ((List.cons.injEq _ _ _ _).mp hsplit).1.symm
        have hxs : xs = u' ++ scanMin g n xs :: v :=
          ((List.cons.injEq _ _ _ _).mp hsplit).2
        have hn : g (scanMin g n xs) < g n := by
          have := hu a (by simp)
          rw [ha] at this
          exact this
        refine ⟨n :: x :: u', v, ?_, ?_⟩
        · have he : (n :: x :: u') ++ scanMin g n xs :: v
              = n :: x :: (u' ++ scanMin g n xs :: v) := by simp
          rw [he, ← hxs]
        · intro y hy
          rcases List.mem_cons.mp hy with h | h
          · subst h; exact hn
          · rcases List.mem_cons.mp h with h' | h'
            · subst h'
              omega
            · exact hu y (by simp [h'])

theorem scanMax_mem (g : Nat → Nat) (n : Nat) (l : List Nat) : scanMax g n l ∈ n :: l := by
  induction l generalizing n with
  | nil => simp [scanMax]
  | cons x xs ih =>
    rw [scanMax]
    split
    · have := ih x
      simp only [List.mem_cons] at this ⊢
      tauto
    · have := ih n
      simp only [List.mem_cons] at this ⊢
      tauto

theorem scanMax_ge (g : Nat → Nat) (n : Nat) (l : List Nat) :
    ∀ x ∈ n :: l, g x ≤ g (scanMax g n l) := by
  induction l generalizing n with
  | nil => simp [scanMax]
  | cons x xs ih =>
    intro y hy
    rw [scanMax]
    by_cases hlt : g x > g n
    · rw [if_pos hlt]
      rcases List.mem_cons.mp hy with h | h
      · rw [h]
        exact le_trans (le_of_lt hlt) (ih x x (by simp))
      · exact ih x y h
    · rw [if_neg hlt]
      rcases List.mem_cons.mp hy with h | h
      · rw [h]
        exact ih n n (by simp)
      · rcases List.mem_cons.mp h with h' | h'
        · rw [h']
          exact le_trans (by omega) (ih n n (by simp))
        · exact ih n y (List.mem_cons_of_mem n h')

theorem scanMax_split (g : Nat → Nat) (n : Nat) (l : List Nat) :
    ∃ u v, n :: l = u ++ scanMax g n l :: v ∧
      ∀ x ∈ u, g x < g (scanMax g n l) := by
  induction l generalizing n with
  | nil => exact ⟨[], [], rfl, by simp⟩
  | cons x xs ih =>
    rw [scanMax]
    split
    · rename_i hlt
      rcases ih x with ⟨u, v, hsplit, hu⟩
      refine ⟨n :: u, v, by rw [List.cons_append, ← hsplit], ?_⟩
      intro y hy
      rcases List.mem_cons.mp hy with h | h
      · subst h
        exact lt_of_lt_of_le hlt (scanMax_ge g x xs x (by simp))
      · exact hu y h
    · rename_i hge
      rcases ih n with ⟨u, v, hsplit, hu⟩
      cases u with
      | nil =>
        simp only [List.nil_append] at hsplit
        have hn : scanMax g n xs = n := by
          have := congrArg (fun t => t.head?) hsplit
          simpa using this.symm
        refine ⟨[], x :: xs, by simp [hn], by simp⟩
      | cons a u' =>
        simp only [List.cons_append] at hsplit
        have ha : a = n := ((List.cons.injEq _ _ _ _).mp hsplit).1.symm
        have hxs : xs = u' ++ scanMax g n xs :: v :=
          ((List.cons.injEq _ _ _ _).mp hsplit).2
        have hn : g n < g (scanMax g n xs) := by
          have := hu a (by simp)
          rw [ha] at this
          exact this
        refine ⟨n :: x :: u', v, ?_, ?_⟩
        · have he : (n :: x :: u') ++ scanMax g n xs :: v
              = n :: x :: (u' ++ scanMax g n xs :: v) := by simp
          rw [he, ← hxs]
        · intro y hy
          rcases List.mem_cons.mp hy with h | h
          · subst h; exact hn
          · rcases List.mem_cons.mp h with h' | h'
            · subst h'
              omega
            · exact hu y (by simp [h'])

theorem scanMax_congr (g g' : Nat → Nat) (n : Nat) (l : List Nat)
    (h : ∀ x ∈ n :: l, g x = g' x) : scanMax g n l = scanMax g' n l := by
  induction l generalizing n with
  | nil => simp [scanMax]
  | cons x xs ih =>
    rw [scanMax, scanMax, h x (by simp), h n (by simp)]
    split
    · exact ih x (fun y hy => h y (by
        rcases List.mem_cons.mp hy with h' | h' <;> simp [h']))
    · exact ih n (fun y hy => h y (by
        rcases List.mem_cons.mp hy with h' | h' <;> simp [h']))

theorem prio_cont_cons_ne (c t : Nat) (rest : List Nat) (h : c ≠ t) :
    prio_cont c [] (t :: rest) = (true, c :: (t :: rest)) := by
  simp [prio_cont, h]

theorem scanMin_head_split (g : Nat → Nat) (h : Nat) (t : List Nat) :
    scanMin g h (h :: t) ∈ h :: t ∧
    (∀ x ∈ h :: t, g (scanMin g h (h :: t)) ≤ g x) ∧
    ∃ u v, h :: t = u ++ scanMin g h (h :: t) :: v ∧
      ∀ x ∈ u, g (scanMin g h (h :: t)) < g x := by
  rcases scanMin_split g h (h :: t) with ⟨u, v, hsplit, hu⟩
  have hle : ∀ x ∈ h :: t, g (scanMin g h (h :: t)) ≤ g x := by
    intro x hx
    exact scanMin_le g h (h :: t) x (List.mem_cons_of_mem h hx)
  cases u with
  | nil =>
    simp only [List.nil_append] at hsplit
    have hm : scanMin g h (h :: t) = h := ((List.cons.injEq _ _ _ _).mp hsplit).1.symm
    exact ⟨by simp [hm], hle, [], t, by simp [hm], by simp⟩
  | cons a u' =>
    simp only [List.cons_append] at hsplit
    have hsp : h :: t = u' ++ scanMin g h (h :: t) :: v :=
      ((List.cons.injEq _ _ _ _).mp hsplit).2
    refine ⟨?_, hle, u', v, hsp, fun x hx => hu x (List.mem_cons_of_mem a hx)⟩
    have hm : scanMin g h (h :: t) ∈ u' ++ scanMin g h (h :: t) :: v :=
      List.mem_append.mpr (Or.inr (by simp))
    rw [← hsp] at hm
    exact hm

theorem scanMax_head_split (g : Nat → Nat) (h : Nat) (t : List Nat) :
    scanMax g h (h :: t) ∈ h :: t ∧
    (∀ x ∈ h :: t, g x ≤ g (scanMax g h (h :: t))) ∧
    ∃ u v, h :: t = u ++ scanMax g h (h :: t) :: v ∧
      ∀ x ∈ u, g x < g (scanMax g h (h :: t)) := by
  rcases scanMax_split g h (h :: t) with ⟨u, v, hsplit, hu⟩
  have hle : ∀ x ∈ h :: t, g x ≤ g (scanMax g h (h :: t)) := by
    intro x hx
    exact scanMax_ge g h (h :: t) x (List.mem_cons_of_mem h hx)
  cases u with
  | nil =>
    simp only [List.nil_append] at hsplit
    have hm : scanMax g h (h :: t) = h := ((List.cons.injEq _ _ _ _).mp hsplit).1.symm
    exact ⟨by simp [hm], hle, [], t, by simp [hm], by simp⟩
  | cons a u' =>
    simp only [List.cons_append] at hsplit
    have hsp : h :: t = u' ++ scanMax g h (h :: t) :: v :=
      ((List.cons.injEq _ _ _ _).mp hsplit).2
    refine ⟨?_, hle, u', v, hsp, fun x hx => hu x (List.mem_cons_of_mem a hx)⟩
    have hm : scanMax g h (h :: t) ∈ u' ++ scanMax g h (h :: t) :: v :=
      List.mem_append.mpr (Or.inr (by simp))
    rw [← hsp] at hm
    exact hm

theorem proc_updProc_isSome (s : State) (i : Nat) (f : Process → Process)
    (hf : ∀ p, (f p).pid = p.pid) :
    ((s.updProc i f).proc i).isSome = (s.proc i).isSome := by
  rw [proc_updProc_self s i f hf]
  cases s.proc i <;> simp

/-- The three fresh-pick triggers reduce `sjf_schedule` to its pick block. -/
theorem sjf_schedule_pick (s : State)
    (hpick : s.current = none ∨ ∃ c, s.current = some c ∧
      ((s.procD c).status = Status.BLOCKED ∨ (s.procD c).lifespan ≤ (s.procD c).age)) :
    sjf_schedule s = sjf_pick_next s := by
  rcases hpick with h | ⟨c, hc, h⟩
  · rw [sjf_schedule, h]
  · rw [sjf_schedule, hc]
    rcases h with h | h
    · simp [h]
    · by_cases hb : (s.procD c).status = Status.BLOCKED
      · simp [hb]
      · simp [hb]
        omega

/-- C6.  For the SJF policy, when a new pick is required and the ready queue
is non-empty, `schedule` returns the ready process with the smallest total
lifespan, ties broken by the earliest position in the ready queue, and
detaches it from the ready queue. -/
theorem C6_sjf_shortest_total_lifespan (s : State)
    (hpick : s.current = none ∨ ∃ c, s.current = some c ∧
      ((s.procD c).status = Status.BLOCKED ∨ (s.procD c).lifespan ≤ (s.procD c).age))
    (hne : s.readyqueue ≠ []) :
    ∃ n, sjf_schedule s = (some n, { s with readyqueue := s.readyqueue.erase n }) ∧
      n ∈ s.readyqueue ∧
      (∀ x ∈ s.readyqueue, (s.procD n).lifespan ≤ (s.procD x).lifespan) ∧
      ∃ u v, s.readyqueue = u ++ n :: v ∧
        ∀ x ∈ u, (s.procD n).lifespan < (s.procD x).lifespan := by
  rcases hrq : s.readyqueue with _ | ⟨h, t⟩
  · exact absurd hrq hne
  · rcases scanMin_head_split (fun i => (s.procD i).lifespan) h t with ⟨hmem, hle, u, v, hsp, hu⟩
    refine ⟨scanMin (fun i => (s.procD i).lifespan) h (h :: t), ?_, hmem, hle, u, v, hsp, hu⟩
    rw [sjf_schedule_pick s hpick]
    simp only [sjf_pick_next, hrq]

/-- C6 witness: with queued lifespans [5, 3, 3, 8] the first lifespan-3
process (pid 2) is selected. -/
theorem C6_sjf_shortest_total_lifespan_witness :
    ∃ n, sjf_schedule sjfExample
        = (some n, { sjfExample with readyqueue := sjfExample.readyqueue.erase n }) ∧
      n ∈ sjfExample.readyqueue ∧
      (∀ x ∈ sjfExample.readyqueue,
        (sjfExample.procD n).lifespan ≤ (sjfExample.procD x).lifespan) ∧
      ∃ u v, sjfExample.readyqueue = u ++ n :: v ∧
        ∀ x ∈ u, (sjfExample.procD n).lifespan < (sjfExample.procD x).lifespan :=
  C6_sjf_shortest_total_lifespan sjfExample (Or.inl (by decide)) (by decide)

/-- One driver tick from a state whose schedule returns the running process
unchanged: the process ages by one and is retired exactly when its lifespan
is reached. -/
theorem driverTick_run (sched : State → Option Nat × State) (s : State) (c : Nat)
    (hstep : sched s = (some c, s)) (hsome : (s.proc c).isSome) :
    driverTick sched s = (some c,
      if (s.procD c).lifespan ≤ (s.procD c).age + 1
      then { s.updProc c (fun p => { p with age := p.age + 1 }) with current := none }
      else { s.updProc c (fun p => { p with age := p.age + 1 }) with current := some c }) := by
  have hD : (s.updProc c (fun p => { p with age := p.age + 1 })).procD c
      = { s.procD c with age := (s.procD c).age + 1 } :=
    procD_updProc_self s c _ (fun _ => rfl) hsome
  have hage2 : ((s.updProc c (fun p => { p with age := p.age + 1 })).procD c).age
      = (s.procD c).age + 1 := by rw [hD]
  have hlife2 : ((s.updProc c (fun p => { p with age := p.age + 1 })).procD c).lifespan
      = (s.procD c).lifespan := by rw [hD]
  simp only [driverTick, hstep, hage2, hlife2]
  by_cases hc2 : (s.procD c).lifespan ≤ (s.procD c).age + 1
  · simp only [if_pos hc2]
  · simp only [if_neg hc2]

/-- A scheduler that keeps returning the running process keeps running it for
its whole remaining lifetime. -/
theorem driverRun_const (sched : State → Option Nat × State)
    (hsched : ∀ s c, s.current = some c → (s.proc c).isSome →
      (s.procD c).status ≠ Status.BLOCKED →
      (s.procD c).age < (s.procD c).lifespan → sched s = (some c, s)) :
    ∀ k s c, s.current = some c → (s.proc c).isSome →
      (s.procD c).status ≠ Status.BLOCKED →
      (s.procD c).age + k ≤ (s.procD c).lifespan →
      (driverRun sched s k).1 = List.replicate k (some c) := by
  intro k
  induction k with
  | zero => intro s c _ _ _ _; rfl
  | succ k ih =>
    intro s c hc hsome hb hk
    have hage : (s.procD c).age < (s.procD c).lifespan := by omega
    have hstep := hsched s c hc hsome hb hage
    have htick := driverTick_run sched s c hstep hsome
    have hrun : driverRun sched s (k + 1)
        = ((driverTick sched s).1 :: (driverRun sched (driverTick sched s).2 k).1,
           (driverRun sched (driverTick sched s).2 k).2) := rfl
    have hD : (s.updProc c (fun p => { p with age := p.age + 1 })).procD c
        = { s.procD c with age := (s.procD c).age + 1 } :=
      procD_updProc_self s c _ (fun _ => rfl) hsome
    have hage2 : ((s.updProc c (fun p => { p with age := p.age + 1 })).procD c).age
        = (s.procD c).age + 1 := by rw [hD]
    have hlife2 : ((s.updProc c (fun p => { p with age := p.age + 1 })).procD c).lifespan
        = (s.procD c).lifespan := by rw [hD]
    have hstat2 : ((s.updProc c (fun p => { p with age := p.age + 1 })).procD c).status
        = (s.procD c).status := by rw [hD]
    cases k with
    | zero =>
      rw [hrun, htick]
      rfl
    | succ m =>
      have hcond : ¬ ((s.procD c).lifespan ≤ (s.procD c).age + 1) := by omega
      rw [hrun, htick, if_neg hcond]
      have htail := ih { s.updProc c (fun p => { p with age := p.age + 1 }) with
          current := some c } c rfl
        (by
          have he : ({ s.updProc c (fun p => { p with age := p.age + 1 }) with
              current := some c } : State).proc c
              = (s.updProc c (fun p => { p with age := p.age + 1 })).proc c := rfl
          rw [he, proc_updProc_isSome s c (fun p => { p with age := p.age + 1 })
            (fun _ => rfl)]
          exact hsome)
        (by
          have he : ({ s.updProc c (fun p => { p with age := p.age + 1 }) with
              current := some c } : State).procD c
              = (s.updProc c (fun p => { p with age := p.age + 1 })).procD c := rfl
          rw [he, hstat2]
          exact hb)
        (by
          have he : ({ s.updProc c (fun p => { p with age := p.age + 1 }) with
              current := some c } : State).procD c
              = (s.updProc c (fun p => { p with age := p.age + 1 })).procD c := rfl
          rw [he, hage2, hlife2]
          omega)
      rw [htail]
      rfl

/-- C8.  Under FCFS and SJF, a running process with remaining lifetime is
returned again by `schedule`, with the whole state untouched (first
conjunct); iterating the driver tick therefore keeps returning the same
process every tick until its age reaches its lifespan (second conjunct).
The process leaves this regime only by exhausting its lifespan or by being
marked BLOCKED in a failed acquire. -/
theorem C8_fcfs_sjf_nonpreemption :
    (∀ s c, s.current = some c → (s.procD c).status ≠ Status.BLOCKED →
      (s.procD c).age < (s.procD c).lifespan →
      fcfs_schedule s = (some c, s) ∧ sjf_schedule s = (some c, s)) ∧
    (∀ k s c, s.current = some c → (s.proc c).isSome →
      (s.procD c).status ≠ Status.BLOCKED →
      (s.procD c).age + k ≤ (s.procD c).lifespan →
      (driverRun fcfs_schedule s k).1 = List.replicate k (some c) ∧
      (driverRun sjf_schedule s k).1 = List.replicate k (some c)) := by
  have hone : ∀ s c, s.current = some c → (s.procD c).status ≠ Status.BLOCKED →
      (s.procD c).age < (s.procD c).lifespan →
      fcfs_schedule s = (some c, s) ∧ sjf_schedule s = (some c, s) := by
    intro s c hc hb hl
    constructor
    · rw [fcfs_schedule, hc]
      simp [hb, hl]
    · rw [sjf_schedule, hc]
      simp [hb, hl]
  refine ⟨hone, fun k s c hc hsome hb hk => ⟨?_, ?_⟩⟩
  · exact driverRun_const fcfs_schedule
      (fun s c hc hsome hb hl => (hone s c hc hb hl).1) k s c hc hsome hb hk
  · exact driverRun_const sjf_schedule
      (fun s c hc hsome hb hl => (hone s c hc hb hl).2) k s c hc hsome hb hk

/-! ## Helper lemmas: the acquire/release paths -/

theorem pa_release_eq : pa_release = prio_release := rfl

theorem prio_acquire_eq : prio_acquire = fcfs_acquire := rfl

theorem pa_acquire_eq : pa_acquire = fcfs_acquire := rfl

theorem fcfs_release_empty (s : State) (c rid : Nat) (r : Resource)
    (hc : s.current = some c) (hres : s.res rid = some r)
    (hown : r.owner = some c) (hwq : r.waitqueue = []) :
    fcfs_release s rid = some (s.updRes rid (fun x => { x with owner := none })) := by
  simp only [fcfs_release, hc, hres, hwq]
  rw [if_pos hown]

theorem prio_release_empty (s : State) (c rid : Nat) (r : Resource)
    (hc : s.current = some c) (hres : s.res rid = some r)
    (hown : r.owner = some c) (hwq : r.waitqueue = []) :
    prio_release s rid = some (s.updRes rid (fun x => { x with owner := none })) := by
  simp only [prio_release, hc, hres, hwq]
  rw [if_pos hown]

theorem pcp_release_empty (s : State) (c rid : Nat) (r : Resource)
    (hc : s.current = some c) (hres : s.res rid = some r)
    (hown : r.owner = some c) (hwq : r.waitqueue = []) :
    pcp_release s rid = some ((s.updProc c (fun p => { p with prio := p.prio_orig })).updRes
      rid (fun x => { x with owner := none })) := by
  simp only [pcp_release, hc, hres, hwq]
  rw [if_pos hown]

theorem prio_release_wake (s : State) (c rid : Nat) (r : Resource) (h : Nat) (t : List Nat)
    (hc : s.current = some c) (hres : s.res rid = some r)
    (hown : r.owner = some c) (hwq : r.waitqueue = h :: t)
    (hbl : ((s.updRes rid (fun x => { x with owner := none })).procD
        (scanMax (fun i => ((s.updRes rid (fun x => { x with owner := none })).procD i).prio)
          h (h :: t))).status = Status.BLOCKED) :
    prio_release s rid
      = some (wakeState (s.updRes rid (fun x => { x with owner := none })) rid
          (scanMax (fun i => ((s.updRes rid (fun x => { x with owner := none })).procD i).prio)
            h (h :: t))) := by
  simp only [prio_release, hc, hres, hwq]
  rw [if_pos hown, if_pos hbl]
  rfl

theorem pcp_release_wake (s : State) (c rid : Nat) (r : Resource) (h : Nat) (t : List Nat)
    (hc : s.current = some c) (hres : s.res rid = some r)
    (hown : r.owner = some c) (hwq : r.waitqueue = h :: t)
    (hbl : (((s.updProc c (fun p => { p with prio := p.prio_orig })).updRes rid
        (fun x => { x with owner := none })).procD
        (scanMax (fun i => (((s.updProc c (fun p => { p with prio := p.prio_orig })).updRes
            rid (fun x => { x with owner := none })).procD i).prio) h (h :: t))).status
      = Status.BLOCKED) :
    pcp_release s rid
      = some (wakeState ((s.updProc c (fun p => { p with prio := p.prio_orig })).updRes rid
          (fun x => { x with owner := none })) rid
          (scanMax (fun i => (((s.updProc c (fun p => { p with prio := p.prio_orig })).updRes
              rid (fun x => { x with owner := none })).procD i).prio) h (h :: t))) := by
  simp only [pcp_release, hc, hres, hwq]
  rw [if_pos hown, if_pos hbl]
  rfl

theorem wakeState_readyqueue (s : State) (rid w : Nat) :
    (wakeState s rid w).readyqueue = s.readyqueue ++ [w] := rfl

theorem wakeState_current (s : State) (rid w : Nat) :
    (wakeState s rid w).current = s.current := rfl

theorem wakeState_status (s : State) (rid w : Nat) (hsome : (s.proc w).isSome) :
    ((wakeState s rid w).procD w).status = Status.READY := by
  have h1 : (wakeState s rid w).procD w
      = ((s.updRes rid (fun x => { x with waitqueue := x.waitqueue.erase w })).updProc w
          (fun p => { p with status := Status.READY })).procD w := rfl
  rw [h1, procD_updProc_self
    (s.updRes rid (fun x => { x with waitqueue := x.waitqueue.erase w })) w
    (fun p => { p with status := Status.READY }) (fun _ => rfl) hsome]

theorem wakeState_procD_ne (s : State) (rid w j : Nat) (hj : j ≠ w) :
    (wakeState s rid w).procD j = s.procD j := by
  have h1 : (wakeState s rid w).procD j
      = ((s.updRes rid (fun x => { x with waitqueue := x.waitqueue.erase w })).updProc w
          (fun p => { p with status := Status.READY })).procD j := rfl
  rw [h1, procD_updProc_ne
    (s.updRes rid (fun x => { x with waitqueue := x.waitqueue.erase w })) w j
    (fun p => { p with status := Status.READY }) (fun _ => rfl) hj, procD_updRes]

theorem wakeState_res (s : State) (rid w : Nat) (x : Resource) (hres : s.res rid = some x) :
    (wakeState s rid w).res rid = some { x with waitqueue := x.waitqueue.erase w } := by
  have h1 : (wakeState s rid w).res rid
      = (s.updRes rid (fun y => { y with waitqueue := y.waitqueue.erase w })).res rid := rfl
  rw [h1, res_updRes_self s rid _ x hres]

theorem wakeState_res_ne (s : State) (rid w j : Nat) (hj : j ≠ rid) :
    (wakeState s rid w).res j = s.res j := by
  have h1 : (wakeState s rid w).res j
      = (s.updRes rid (fun y => { y with waitqueue := y.waitqueue.erase w })).res j := rfl
  rw [h1, res_updRes_ne s rid j _ hj]

/-- `pcp_release` on a valid owner state: the releasing process's `prio`
returns to `prio_orig`, the resource becomes free, and other resources are
untouched (any wait-queue population). -/
theorem pcp_release_general (s : State) (c rid : Nat) (r : Resource)
    (hc : s.current = some c) (hsome : (s.proc c).isSome)
    (hres : s.res rid = some r) (hown : r.owner = some c)
    (hcw : c ∉ r.waitqueue)
    (hbl : ∀ x ∈ r.waitqueue, (s.procD x).status = Status.BLOCKED) :
    ∃ s', pcp_release s rid = some s' ∧
      (s'.procD c).prio = (s.procD c).prio_orig ∧
      (s'.res rid).map Resource.owner = some none ∧
      (∀ j, j ≠ rid → s'.res j = s.res j) := by
  have hpo : ∀ p : Process, (({ p with prio := p.prio_orig } : Process)).pid = p.pid :=
    fun _ => rfl
  rcases hwq : r.waitqueue with _ | ⟨h, t⟩
  · refine ⟨_, pcp_release_empty s c rid r hc hres hown hwq, ?_, ?_, ?_⟩
    · rw [procD_updRes, procD_updProc_self s c (fun p => { p with prio := p.prio_orig })
        hpo hsome]
    · rw [res_updRes_self (s.updProc c (fun p => { p with prio := p.prio_orig })) rid _ r
        hres]
      rfl
    · intro j hj
      rw [res_updRes_ne (s.updProc c (fun p => { p with prio := p.prio_orig })) rid j _ hj]
      rfl
  · have hcw' : c ∉ h :: t := by rw [hwq] at hcw; exact hcw
    have hmem : scanMax (fun i =>
        (((s.updProc c (fun p => { p with prio := p.prio_orig })).updRes rid
          (fun x => { x with owner := none })).procD i).prio) h (h :: t) ∈ h :: t :=
      (scanMax_head_split _ h t).1
    have hwc : scanMax (fun i =>
        (((s.updProc c (fun p => { p with prio := p.prio_orig })).updRes rid
          (fun x => { x with owner := none })).procD i).prio) h (h :: t) ≠ c :=
      fun he => hcw' (he ▸ hmem)
    have hDeq : ∀ j, j ≠ c →
        (((s.updProc c (fun p => { p with prio := p.prio_orig })).updRes rid
          (fun x => { x with owner := none })).procD j) = s.procD j := by
      intro j hj
      rw [procD_updRes, procD_updProc_ne s c j _ hpo hj]
    have hbl2 : (((s.updProc c (fun p => { p with prio := p.prio_orig })).updRes rid
        (fun x => { x with owner := none })).procD
        (scanMax (fun i =>
          (((s.updProc c (fun p => { p with prio := p.prio_orig })).updRes rid
            (fun x => { x with owner := none })).procD i).prio) h (h :: t))).status
        = Status.BLOCKED := by
      rw [hDeq _ hwc]
      exact hbl _ (by rw [hwq]; exact hmem)
    refine ⟨_, pcp_release_wake s c rid r h t hc hres hown hwq hbl2, ?_, ?_, ?_⟩
    · rw [wakeState_procD_ne _ rid _ c (fun he => hwc he.symm), procD_updRes,
        procD_updProc_self s c (fun p => { p with prio := p.prio_orig }) hpo hsome]
    · rw [wakeState_res _ rid _ { r with owner := none }
        (res_updRes_self (s.updProc c (fun p => { p with prio := p.prio_orig })) rid _ r
          hres)]
      rfl
    · intro j hj
      rw [wakeState_res_ne _ rid _ j hj,
        res_updRes_ne (s.updProc c (fun p => { p with prio := p.prio_orig })) rid j _ hj]
      rfl

/-- C8 witness: a running process (age 2, lifespan 5) is kept by both
policies, and runs the next 3 driver ticks. -/
theorem C8_fcfs_sjf_nonpreemption_witness :
    (fcfs_schedule runExample = (some 1, runExample) ∧
      sjf_schedule runExample = (some 1, runExample)) ∧
    (driverRun fcfs_schedule runExample 3).1 = List.replicate 3 (some 1) ∧
    (driverRun sjf_schedule runExample 3).1 = List.replicate 3 (some 1) :=
  ⟨C8_fcfs_sjf_nonpreemption.1 runExample 1 rfl (by decide) (by decide),
    C8_fcfs_sjf_nonpreemption.2 3 runExample 1 rfl (by decide) (by decide) (by decide)⟩

/-- C7.  For the RR policy, every schedule call with a current process that
still has remaining lifetime moves it to the ready-queue tail and pops the
ready-queue head (first conjunct); consequently three lifespan-3 processes
enqueued P1, P2, P3 and driven from an empty-current state run in the cyclic
order P1,P2,P3,P1,P2,P3,P1,P2,P3, one tick each (second conjunct). -/
theorem C7_rr_quantum :
    (∀ s c, s.current = some c → (s.procD c).status ≠ Status.BLOCKED →
      (s.procD c).age < (s.procD c).lifespan → c ∉ s.readyqueue →
      (s.readyqueue = [] → rr_schedule s = (some c, { s with readyqueue := [] })) ∧
      (∀ h t, s.readyqueue = h :: t →
        rr_schedule s = (some h, { s with readyqueue := t ++ [c] }))) ∧
    (driverRun rr_schedule rrExample 9).1 =
      [some 1, some 2, some 3, some 1, some 2, some 3, some 1, some 2, some 3] := by
  constructor
  · intro s c hc hb hl hnm
    have hred : rr_schedule s
        = rr_pick_next { s with readyqueue := s.readyqueue.erase c ++ [c] } := by
      simp only [rr_schedule, hc]
      rw [if_neg hb, if_pos hl]
    constructor
    · intro hrq
      rw [hred, hrq]
      rfl
    · intro h t hrq
      rw [hrq] at hnm
      rw [hred, hrq, List.erase_of_not_mem hnm]
      rfl
  · decide

/-- C7 witness: running pid 1 (remaining lifetime 3) with ready queue [2]
yields pid 2 and requeues pid 1 at the tail. -/
theorem C7_rr_quantum_witness :
    rr_schedule runExample = (some 2, { runExample with readyqueue := [] ++ [1] }) :=
  ((C7_rr_quantum.1 runExample 1 rfl (by decide) (by decide) (by decide)).2) 2 [] rfl

/-- C4.  PCP: a successful acquire assigns ownership to the requester and
raises the new owner's `prio` to `MAX_PRIO` (first conjunct); a release
restores the releasing owner's `prio` to `prio_orig` and clears ownership
(second conjunct). -/
theorem C4_pcp_ceiling :
    (∀ s c rid r, s.current = some c → (s.proc c).isSome → s.res rid = some r →
      r.owner = none →
      ∃ s', pcp_acquire s rid = some (true, s') ∧
        s'.res rid = some { r with owner := some c } ∧
        (s'.procD c).prio = maxPrio) ∧
    (∀ s c rid r, s.current = some c → (s.proc c).isSome → s.res rid = some r →
      r.owner = some c → c ∉ r.waitqueue →
      (∀ x ∈ r.waitqueue, (s.procD x).status = Status.BLOCKED) →
      ∃ s', pcp_release s rid = some s' ∧
        (s'.procD c).prio = (s.procD c).prio_orig ∧
        (s'.res rid).map Resource.owner = some none) := by
  constructor
  · intro s c rid r hc hsome hres hown
    refine ⟨(s.updRes rid (fun x => { x with owner := some c })).updProc c
        (fun p => { p with prio := maxPrio }), ?_, ?_, ?_⟩
    · simp only [pcp_acquire, hc, hres, hown]
    · exact res_updRes_self s rid _ r hres
    · rw [procD_updProc_self (s.updRes rid (fun x => { x with owner := some c })) c
        (fun p => { p with prio := maxPrio }) (fun _ => rfl) hsome]
  · intro s c rid r hc hsome hres hown hcw hbl
    rcases pcp_release_general s c rid r hc hsome hres hown hcw hbl with
      ⟨s', heq, hprio, hfree, _⟩
    exact ⟨s', heq, hprio, hfree⟩

/-- C4 witness: pid 9 (baseline priority 2) acquires free resource 0 and its
priority jumps to the ceiling; releasing resource 0 restores it. -/
theorem C4_pcp_ceiling_witness :
    (∃ s', pcp_acquire pcpExample 0 = some (true, s') ∧
      s'.res 0 = some { owner := some 9, waitqueue := [] } ∧
      (s'.procD 9).prio = maxPrio) ∧
    (∃ s', pcp_release pcpOwnsTwo 0 = some s' ∧
      (s'.procD 9).prio = (pcpOwnsTwo.procD 9).prio_orig ∧
      (s'.res 0).map Resource.owner = some none) :=
  ⟨C4_pcp_ceiling.1 pcpExample 9 0 { owner := none, waitqueue := [] } rfl (by decide)
      (by decide) rfl,
    C4_pcp_ceiling.2 pcpOwnsTwo 9 0 { owner := some 9, waitqueue := [] } rfl (by decide)
      (by decide) rfl (by decide) (by decide)⟩

/-- C10.  PCP's release restores `prio_orig` with no regard to other
resources the process still owns: releasing one of two held resources drops
the owner's priority from the ceiling to `prio_orig` while it still owns
the other. -/
theorem C10_pcp_release_ignores_other_resources (s : State) (c r1 r2 : Nat)
    (a b : Resource)
    (hc : s.current = some c) (hsome : (s.proc c).isSome)
    (hres1 : s.res r1 = some a) (hres2 : s.res r2 = some b)
    (hne : r2 ≠ r1)
    (hown1 : a.owner = some c) (hown2 : b.owner = some c)
    (hcw : c ∉ a.waitqueue)
    (hbl : ∀ x ∈ a.waitqueue, (s.procD x).status = Status.BLOCKED)
    (hmax : (s.procD c).prio = maxPrio) :
    ∃ s', pcp_release s r1 = some s' ∧
      (s'.procD c).prio = (s.procD c).prio_orig ∧
      s'.res r2 = some b := by
  rcases pcp_release_general s c r1 a hc hsome hres1 hown1 hcw hbl with
    ⟨s', heq, hprio, _, hother⟩
  refine ⟨s', heq, hprio, ?_⟩
  rw [hother r2 hne]
  exact hres2

/-- C10 witness: pid 9 owns resources 0 and 1 at ceiling priority; releasing
resource 0 drops its priority to `prio_orig` = 2 while it still owns
resource 1. -/
theorem C10_pcp_release_ignores_other_resources_witness :
    ∃ s', pcp_release pcpOwnsTwo 0 = some s' ∧
      (s'.procD 9).prio = (pcpOwnsTwo.procD 9).prio_orig ∧
      s'.res 1 = some { owner := some 9, waitqueue := [] } :=
  C10_pcp_release_ignores_other_resources pcpOwnsTwo 9 0 1
    { owner := some 9, waitqueue := [] } { owner := some 9, waitqueue := [] }
    rfl (by decide) rfl rfl (by decide) rfl rfl (by decide) (by decide) (by decide)

/-- C9.  For every implemented release function (`fcfs_release`, shared by
FCFS/SJF/STCF/RR, and `prio_release`, `pa_release`, `pcp_release`), a
release on a resource with an empty wait queue clears the owner and leaves
the ready queue, every wait queue and every process status unchanged. -/
theorem C9_release_empty_waitqueue_frame :
    ∀ s c rid r, s.current = some c → (s.proc c).isSome → s.res rid = some r →
      r.owner = some c → r.waitqueue = [] →
      (∃ s', fcfs_release s rid = some s' ∧ releaseFrame s s' rid r) ∧
      (∃ s', prio_release s rid = some s' ∧ releaseFrame s s' rid r) ∧
      (∃ s', pa_release s rid = some s' ∧ releaseFrame s s' rid r) ∧
      (∃ s', pcp_release s rid = some s' ∧ releaseFrame s s' rid r) := by
  intro s c rid r hc hsome hres hown hwq
  have hframe1 : releaseFrame s (s.updRes rid (fun x => { x with owner := none })) rid r := by
    refine ⟨rfl, rfl, ?_, ?_, ?_, fun j => rfl⟩
    · rw [res_updRes_self s rid _ r hres]
      rfl
    · rw [res_updRes_self s rid _ r hres]
      rfl
    · intro j hj
      exact res_updRes_ne s rid j _ hj
  have hpo : ∀ p : Process, (({ p with prio := p.prio_orig } : Process)).pid = p.pid :=
    fun _ => rfl
  have hframe2 : releaseFrame s ((s.updProc c (fun p => { p with prio := p.prio_orig })).updRes
      rid (fun x => { x with owner := none })) rid r := by
    refine ⟨rfl, rfl, ?_, ?_, ?_, ?_⟩
    · rw [res_updRes_self (s.updProc c (fun p => { p with prio := p.prio_orig })) rid _ r hres]
      rfl
    · rw [res_updRes_self (s.updProc c (fun p => { p with prio := p.prio_orig })) rid _ r hres]
      rfl
    · intro j hj
      rw [res_updRes_ne (s.updProc c (fun p => { p with prio := p.prio_orig })) rid j _ hj]
      rfl
    · intro j
      rw [procD_updRes]
      by_cases hjc : j = c
      · rw [hjc, procD_updProc_self s c (fun p => { p with prio := p.prio_orig }) hpo hsome]
      · rw [procD_updProc_ne s c j _ hpo hjc]
  refine ⟨⟨_, fcfs_release_empty s c rid r hc hres hown hwq, hframe1⟩,
    ⟨_, prio_release_empty s c rid r hc hres hown hwq, hframe1⟩,
    ⟨_, ?_, hframe1⟩,
    ⟨_, pcp_release_empty s c rid r hc hres hown hwq, hframe2⟩⟩
  rw [pa_release_eq]
  exact prio_release_empty s c rid r hc hres hown hwq

/-- C9 witness: releasing resource 0 (empty wait queue) in the concrete
two-resource state mutates no queue under any of the four release
functions. -/
theorem C9_release_empty_waitqueue_frame_witness :
    (∃ s', fcfs_release pcpOwnsTwo 0 = some s' ∧
      releaseFrame pcpOwnsTwo s' 0 { owner := some 9, waitqueue := [] }) ∧
    (∃ s', prio_release pcpOwnsTwo 0 = some s' ∧
      releaseFrame pcpOwnsTwo s' 0 { owner := some 9, waitqueue := [] }) ∧
    (∃ s', pa_release pcpOwnsTwo 0 = some s' ∧
      releaseFrame pcpOwnsTwo s' 0 { owner := some 9, waitqueue := [] }) ∧
    (∃ s', pcp_release pcpOwnsTwo 0 = some s' ∧
      releaseFrame pcpOwnsTwo s' 0 { owner := some 9, waitqueue := [] }) :=
  C9_release_empty_waitqueue_frame pcpOwnsTwo 9 0 { owner := some 9, waitqueue := [] }
    rfl (by decide) rfl rfl rfl

/-- C5.  The Priority, Priority+Aging and PCP releases with a non-empty wait
queue wake exactly one waiter: the one with the maximum `prio`, ties broken
in favor of the earliest-blocked (earliest wait-queue position); it is
removed from the wait queue, marked READY, and appended to the ready-queue
tail, regardless of block order. -/
theorem C5_release_wakes_highest_prio (s : State) (c rid : Nat) (r : Resource)
    (h : Nat) (t : List Nat)
    (hc : s.current = some c) (hsome : (s.proc c).isSome)
    (hres : s.res rid = some r) (hown : r.owner = some c)
    (hwq : r.waitqueue = h :: t) (hcw : c ∉ r.waitqueue)
    (hws : ∀ x ∈ r.waitqueue, (s.proc x).isSome)
    (hbl : ∀ x ∈ r.waitqueue, (s.procD x).status = Status.BLOCKED) :
    ∃ w, w ∈ r.waitqueue ∧
      (∀ x ∈ r.waitqueue, (s.procD x).prio ≤ (s.procD w).prio) ∧
      (∃ u v, r.waitqueue = u ++ w :: v ∧
        ∀ x ∈ u, (s.procD x).prio < (s.procD w).prio) ∧
      (∃ s1, prio_release s rid = some s1 ∧
        s1.readyqueue = s.readyqueue ++ [w] ∧
        (s1.procD w).status = Status.READY ∧
        (s1.res rid).map Resource.waitqueue = some (r.waitqueue.erase w)) ∧
      (∃ s2, pa_release s rid = some s2 ∧
        s2.readyqueue = s.readyqueue ++ [w] ∧
        (s2.procD w).status = Status.READY ∧
        (s2.res rid).map Resource.waitqueue = some (r.waitqueue.erase w)) ∧
      (∃ s3, pcp_release s rid = some s3 ∧
        s3.readyqueue = s.readyqueue ++ [w] ∧
        (s3.procD w).status = Status.READY ∧
        (s3.res rid).map Resource.waitqueue = some (r.waitqueue.erase w)) := by
  have hcw' : c ∉ h :: t := by rw [hwq] at hcw; exact hcw
  have hpo : ∀ p : Process, (({ p with prio := p.prio_orig } : Process)).pid = p.pid :=
    fun _ => rfl
  rcases scanMax_head_split (fun i => (s.procD i).prio) h t with ⟨hmem, hle, u, v, hsp, hu⟩
  have hwmem : scanMax (fun i => (s.procD i).prio) h (h :: t) ∈ r.waitqueue := by
    rw [hwq]; exact hmem
  have hbl1 : ((s.updRes rid (fun x => { x with owner := none })).procD
      (scanMax (fun i => ((s.updRes rid (fun x => { x with owner := none })).procD i).prio)
        h (h :: t))).status = Status.BLOCKED :=
    hbl _ hwmem
  have heq1 := prio_release_wake s c rid r h t hc hres hown hwq hbl1
  have heq2 : pa_release s rid
      = some (wakeState (s.updRes rid (fun x => { x with owner := none })) rid
          (scanMax (fun i => ((s.updRes rid (fun x => { x with owner := none })).procD i).prio)
            h (h :: t))) := by
    rw [pa_release_eq]; exact heq1
  have hmem2 : scanMax (fun i =>
      (((s.updProc c (fun p => { p with prio := p.prio_orig })).updRes rid
        (fun x => { x with owner := none })).procD i).prio) h (h :: t) ∈ h :: t :=
    (scanMax_head_split _ h t).1
  have hwc2 : scanMax (fun i =>
      (((s.updProc c (fun p => { p with prio := p.prio_orig })).updRes rid
        (fun x => { x with owner := none })).procD i).prio) h (h :: t) ≠ c :=
    fun he => hcw' (he ▸ hmem2)
  have hbl3 : (((s.updProc c (fun p => { p with prio := p.prio_orig })).updRes rid
      (fun x => { x with owner := none })).procD
      (scanMax (fun i =>
        (((s.updProc c (fun p => { p with prio := p.prio_orig })).updRes rid
          (fun x => { x with owner := none })).procD i).prio) h (h :: t))).status
      = Status.BLOCKED := by
    rw [procD_updRes, procD_updProc_ne s c _ _ hpo hwc2]
    refine hbl _ ?_
    rw [hwq]; exact hmem2
  have heq3 := pcp_release_wake s c rid r h t hc hres hown hwq hbl3
  have hw2 : scanMax (fun i =>
      (((s.updProc c (fun p => { p with prio := p.prio_orig })).updRes rid
        (fun x => { x with owner := none })).procD i).prio) h (h :: t)
      = scanMax (fun i => (s.procD i).prio) h (h :: t) := by
    refine scanMax_congr _ _ h (h :: t) ?_
    intro x hx
    have hx' : x ∈ h :: t := by
      rcases List.mem_cons.mp hx with h1 | h1
      · rw [h1]; exact List.mem_cons_self _ _
      · exact h1
    have hxc : x ≠ c := fun he => hcw' (he ▸ hx')
    rw [procD_updRes, procD_updProc_ne s c x _ hpo hxc]
  rw [hw2] at heq3
  refine ⟨scanMax (fun i => (s.procD i).prio) h (h :: t), hwmem, ?_, ?_, ?_, ?_, ?_⟩
  · intro x hx
    rw [hwq] at hx
    exact hle x hx
  · exact ⟨u, v, by rw [hwq]; exact hsp, hu⟩
  · refine ⟨_, heq1, ?_, ?_, ?_⟩
    · exact wakeState_readyqueue _ rid _
    · exact wakeState_status _ rid _ (hws _ hwmem)
    · rw [wakeState_res _ rid _ { r with owner := none } (res_updRes_self s rid _ r hres)]
      rfl
  · refine ⟨_, heq2, ?_, ?_, ?_⟩
    · exact wakeState_readyqueue _ rid _
    · exact wakeState_status _ rid _ (hws _ hwmem)
    · rw [wakeState_res _ rid _ { r with owner := none } (res_updRes_self s rid _ r hres)]
      rfl
  · refine ⟨_, heq3, ?_, ?_, ?_⟩
    · exact wakeState_readyqueue _ rid _
    · refine wakeState_status _ rid _ ?_
      have hwcS : scanMax (fun i => (s.procD i).prio) h (h :: t) ≠ c := by
        rw [← hw2]; exact hwc2
      rw [proc_updRes, proc_updProc_ne s c _ _ hpo hwcS]
      exact hws _ hwmem
    · rw [wakeState_res _ rid _ { r with owner := none }
        (res_updRes_self (s.updProc c (fun p => { p with prio := p.prio_orig })) rid _ r
          hres)]
      rfl

/-- C5 witness: waiters [1, 2, 3] with priorities [2, 5, 3] — all three
releases wake the priority-5 waiter (pid 2) although it blocked second. -/
theorem C5_release_wakes_highest_prio_witness :
    ∃ w, w ∈ ({ owner := some 9, waitqueue := [1, 2, 3] } : Resource).waitqueue ∧
      (∀ x ∈ ({ owner := some 9, waitqueue := [1, 2, 3] } : Resource).waitqueue,
        (wakeExample.procD x).prio ≤ (wakeExample.procD w).prio) ∧
      (∃ u v, ({ owner := some 9, waitqueue := [1, 2, 3] } : Resource).waitqueue
          = u ++ w :: v ∧
        ∀ x ∈ u, (wakeExample.procD x).prio < (wakeExample.procD w).prio) ∧
      (∃ s1, prio_release wakeExample 0 = some s1 ∧
        s1.readyqueue = wakeExample.readyqueue ++ [w] ∧
        (s1.procD w).status = Status.READY ∧
        (s1.res 0).map Resource.waitqueue
          = some (({ owner := some 9, waitqueue := [1, 2, 3] } : Resource).waitqueue.erase w)) ∧
      (∃ s2, pa_release wakeExample 0 = some s2 ∧
        s2.readyqueue = wakeExample.readyqueue ++ [w] ∧
        (s2.procD w).status = Status.READY ∧
        (s2.res 0).map Resource.waitqueue
          = some (({ owner := some 9, waitqueue := [1, 2, 3] } : Resource).waitqueue.erase w)) ∧
      (∃ s3, pcp_release wakeExample 0 = some s3 ∧
        s3.readyqueue = wakeExample.readyqueue ++ [w] ∧
        (s3.procD w).status = Status.READY ∧
        (s3.res 0).map Resource.waitqueue
          = some (({ owner := some 9, waitqueue := [1, 2, 3] } : Resource).waitqueue.erase w)) :=
  C5_release_wakes_highest_prio wakeExample 9 0 { owner := some 9, waitqueue := [1, 2, 3] }
    1 [2, 3] rfl (by decide) rfl rfl rfl (by decide) (by decide) (by decide)

/-! ## Helper lemmas: the STCF preemption scan and the aging loop -/

theorem stcf_scan_none (s : State) (c : Process) (l : List Nat) :
    stcf_preempt_scan s c l = none ↔
      ∀ x ∈ l, ¬(c.lifespan - c.age > (s.procD x).lifespan - (s.procD x).age) := by
  induction l with
  | nil => simp [stcf_preempt_scan]
  | cons x xs ih =>
    rw [stcf_preempt_scan]
    by_cases hx : c.lifespan - c.age > (s.procD x).lifespan - (s.procD x).age
    · rw [if_pos hx]
      constructor
      · intro hcon
        exact absurd hcon (by simp)
      · intro hall
        exact absurd hx (hall x (by simp))
    · rw [if_neg hx, ih]
      constructor
      · intro hall y hy
        rcases List.mem_cons.mp hy with h1 | h1
        · rw [h1]; exact hx
        · exact hall y h1
      · intro hall y hy
        exact hall y (List.mem_cons_of_mem x hy)

theorem stcf_scan_some (s : State) (c : Process) (l : List Nat) (n : Nat)
    (hscan : stcf_preempt_scan s c l = some n) :
    n ∈ l ∧
    c.lifespan - c.age > (s.procD n).lifespan - (s.procD n).age ∧
    ∃ u v, l = u ++ n :: v ∧
      ∀ x ∈ u, ¬(c.lifespan - c.age > (s.procD x).lifespan - (s.procD x).age) := by
  induction l with
  | nil => simp [stcf_preempt_scan] at hscan
  | cons x xs ih =>
    rw [stcf_preempt_scan] at hscan
    by_cases hx : c.lifespan - c.age > (s.procD x).lifespan - (s.procD x).age
    · rw [if_pos hx] at hscan
      cases hscan
      exact ⟨by simp, hx, [], xs, rfl, by simp⟩
    · rw [if_neg hx] at hscan
      rcases ih hscan with ⟨hmem, hlt, u, v, hsp, hu⟩
      refine ⟨List.mem_cons_of_mem x hmem, hlt, x :: u, v, ?_, ?_⟩
      · rw [List.cons_append, ← hsp]
      · intro y hy
        rcases List.mem_cons.mp hy with h1 | h1
        · rw [h1]; exact hx
        · exact hu y h1

theorem find?_pid_map (l : List Process) (i : Nat) (g : Process → Process)
    (hg : ∀ p, (g p).pid = p.pid) :
    (l.map g).find? (fun p => p.pid == i) = (l.find? (fun p => p.pid == i)).map g := by
  induction l with
  | nil => rfl
  | cons a l ih =>
    by_cases h : a.pid = i
    · rw [List.map_cons, List.find?_cons_of_pos _ (by simp [hg, h]),
        List.find?_cons_of_pos _ (by simp [h])]
      simp
    · rw [List.map_cons, List.find?_cons_of_neg _ (by simp [hg, h]),
        List.find?_cons_of_neg _ (by simp [h])]
      exact ih

theorem proc_pa_age (s : State) (q : Nat) :
    (pa_age s).proc q = (s.proc q).map
      (fun p => if s.readyqueue.contains p.pid then { p with prio := p.prio + 1 } else p) := by
  refine find?_pid_map s.procs q _ ?_
  intro p
  by_cases hp : p.pid ∈ s.readyqueue
  · simp [hp]
  · simp [hp]

theorem procD_pa_age_mem (s : State) (q : Nat) (hq : q ∈ s.readyqueue)
    (hsome : (s.proc q).isSome) :
    (pa_age s).procD q = { s.procD q with prio := (s.procD q).prio + 1 } := by
  unfold State.procD
  rw [proc_pa_age]
  cases hp : s.proc q with
  | none => rw [hp] at hsome; simp at hsome
  | some p =>
      have hpid : p.pid = q := by
        have := List.find?_some hp
        simpa using this
      have hmem : p.pid ∈ s.readyqueue := by
        rw [hpid]; exact hq
      simp [hmem]

theorem procD_pa_age_not_mem (s : State) (q : Nat) (hq : q ∉ s.readyqueue) :
    (pa_age s).procD q = s.procD q := by
  unfold State.procD
  rw [proc_pa_age]
  cases hp : s.proc q with
  | none => rfl
  | some p =>
      have hpid : p.pid = q := by
        have := List.find?_some hp
        simpa using this
      have hmem : p.pid ∉ s.readyqueue := by
        rw [hpid]; exact hq
      simp [hmem]

theorem pa_pick_next_procD (s : State) (q : Nat) (hq : (s.proc q).isSome)
    (hne : s.readyqueue ≠ []) :
    ∃ n, (pa_pick_next s).1 = some n ∧
      (n = q → ((pa_pick_next s).2.procD q).prio = (s.procD q).prio_orig) ∧
      (n ≠ q → (pa_pick_next s).2.procD q = s.procD q) := by
  rcases hrq : s.readyqueue with _ | ⟨h, t⟩
  · exact absurd hrq hne
  · have heq : pa_pick_next s
        = (some (scanMax (fun i => (s.procD i).prio) h (h :: t)),
          { s.updProc (scanMax (fun i => (s.procD i).prio) h (h :: t))
              (fun p => { p with prio := p.prio_orig }) with
            readyqueue := s.readyqueue.erase
              (scanMax (fun i => (s.procD i).prio) h (h :: t)) }) := by
      simp only [pa_pick_next, hrq, updProc_readyqueue]
    refine ⟨scanMax (fun i => (s.procD i).prio) h (h :: t), by rw [heq], ?_, ?_⟩
    · intro hnq
      rw [heq]
      have h1 : ({ s.updProc (scanMax (fun i => (s.procD i).prio) h (h :: t))
          (fun p => { p with prio := p.prio_orig }) with
          readyqueue := s.readyqueue.erase
            (scanMax (fun i => (s.procD i).prio) h (h :: t)) } : State).procD q
          = (s.updProc (scanMax (fun i => (s.procD i).prio) h (h :: t))
              (fun p => { p with prio := p.prio_orig })).procD q := rfl
      rw [h1, hnq, procD_updProc_self s q (fun p => { p with prio := p.prio_orig })
        (fun _ => rfl) hq]
    · intro hnq
      rw [heq]
      have h1 : ({ s.updProc (scanMax (fun i => (s.procD i).prio) h (h :: t))
          (fun p => { p with prio := p.prio_orig }) with
          readyqueue := s.readyqueue.erase
            (scanMax (fun i => (s.procD i).prio) h (h :: t)) } : State).procD q
          = (s.updProc (scanMax (fun i => (s.procD i).prio) h (h :: t))
              (fun p => { p with prio := p.prio_orig })).procD q := rfl
      rw [h1, procD_updProc_ne s _ q (fun p => { p with prio := p.prio_orig })
        (fun _ => rfl) (fun he => hnq he.symm)]

theorem proc_pa_age_isSome (s : State) (q : Nat) :
    ((pa_age s).proc q).isSome = (s.proc q).isSome := by
  rw [proc_pa_age]
  cases s.proc q <;> rfl

/-! ## Helper lemmas: queue-occupancy accounting -/

theorem occ_eq (s : State) (p : Nat) :
    occCount s p = s.readyqueue.count p + wqCount s p := rfl

theorem queueOk_of (s : State) (h1 : ∀ p, occCount s p ≤ 1)
    (h2 : ∀ c, s.current = some c → (s.procD c).status ≠ Status.BLOCKED →
      occCount s c = 0) :
    QueueOk s := by
  refine ⟨fun p _ => h1 p, fun r _ p _ => h1 p, ?_⟩
  intro c hc hb
  refine h2 c ?_ hb
  cases hcur : s.current with
  | none => rw [hcur] at hc; simp at hc
  | some a =>
      rw [hcur] at hc
      simp only [Option.toList_some, List.mem_singleton] at hc
      rw [hc]

theorem count_le_wqCount (s : State) (rid : Nat) (r : Resource)
    (h : s.res rid = some r) (p : Nat) :
    r.waitqueue.count p ≤ wqCount s p := by
  have hmem : r ∈ s.resources := List.get?_mem h
  have hmem2 : r.waitqueue.count p ∈ s.resources.map (fun x => x.waitqueue.count p) :=
    List.mem_map_of_mem _ hmem
  exact List.single_le_sum (fun x _ => Nat.zero_le x) _ hmem2

theorem pickHead_ok (s : State) (n : Nat) (rest : List Nat)
    (hrq : s.readyqueue = n :: rest) (hocc : ∀ p, occCount s p ≤ 1) :
    QueueOk { s with readyqueue := rest, current := some n } := by
  refine queueOk_of _ ?_ ?_
  · intro p
    have e1 : occCount { s with readyqueue := rest, current := some n } p
        = rest.count p + wqCount s p := rfl
    rw [e1]
    have hle := hocc p
    rw [occ_eq, hrq] at hle
    by_cases hpn : p = n
    · subst hpn
      rw [List.count_cons_self] at hle
      omega
    · rw [List.count_cons_of_ne hpn] at hle
      omega
  · intro c' hc' hb'
    have hcn : c' = n := by
      have e : ({ s with readyqueue := rest, current := some n } : State).current
          = some n := rfl
      rw [e] at hc'
      exact (Option.some.inj hc').symm
    subst hcn
    have hle := hocc c'
    rw [occ_eq, hrq, List.count_cons_self] at hle
    have e1 : occCount { s with readyqueue := rest, current := some c' } c'
        = rest.count c' + wqCount s c' := rfl
    rw [e1]
    omega

theorem pickErase_ok (s : State) (n : Nat) (hmem : n ∈ s.readyqueue)
    (hocc : ∀ p, occCount s p ≤ 1) :
    QueueOk { s with readyqueue := s.readyqueue.erase n, current := some n } := by
  refine queueOk_of _ ?_ ?_
  · intro p
    have e1 : occCount { s with readyqueue := s.readyqueue.erase n, current := some n } p
        = (s.readyqueue.erase n).count p + wqCount s p := rfl
    rw [e1, List.count_erase]
    have hle := hocc p
    rw [occ_eq] at hle
    by_cases hpn : n = p
    · rw [if_pos (beq_iff_eq.mpr hpn)]
      omega
    · rw [if_neg (by simpa using hpn)]
      omega
  · intro c' hc' hb'
    have hcn : c' = n := by
      have e : ({ s with readyqueue := s.readyqueue.erase n, current := some n } :
          State).current = some n := rfl
      rw [e] at hc'
      exact (Option.some.inj hc').symm
    subst hcn
    have hle := hocc c'
    rw [occ_eq] at hle
    have hpos : 0 < s.readyqueue.count c' := List.count_pos_iff.mpr hmem
    have e1 : occCount { s with readyqueue := s.readyqueue.erase c', current := some c' } c'
        = (s.readyqueue.erase c').count c' + wqCount s c' := rfl
    rw [e1, List.count_erase_self]
    omega

theorem pickErase_upd_ok (s : State) (n : Nat) (f : Process → Process)
    (hmem : n ∈ s.readyqueue) (hocc : ∀ p, occCount s p ≤ 1) :
    QueueOk { s.updProc n f with
      readyqueue := s.readyqueue.erase n, current := some n } := by
  have h := pickErase_ok s n hmem hocc
  refine queueOk_of _ ?_ ?_
  · intro p
    exact h.occ_le p
  · intro c' hc' hb'
    have hcn : c' = n := by
      have e : ({ s.updProc n f with
          readyqueue := s.readyqueue.erase n, current := some n } : State).current
          = some n := rfl
      rw [e] at hc'
      exact (Option.some.inj hc').symm
    subst hcn
    have hle := hocc c'
    rw [occ_eq] at hle
    have hpos : 0 < s.readyqueue.count c' := List.count_pos_iff.mpr hmem
    have e1 : occCount { s.updProc c' f with
        readyqueue := s.readyqueue.erase c', current := some c' } c'
        = (s.readyqueue.erase c').count c' + wqCount s c' := rfl
    rw [e1, List.count_erase_self]
    omega

theorem occ_consHead_le (s : State) (c : Nat) (hocc : ∀ p, occCount s p ≤ 1)
    (hc0 : occCount s c = 0) (p : Nat) :
    (c :: s.readyqueue).count p + wqCount s p ≤ 1 := by
  have hle := hocc p
  rw [occ_eq] at hle hc0
  by_cases hpc : p = c
  · subst hpc
    rw [List.count_cons_self]
    omega
  · rw [List.count_cons_of_ne hpc]
    omega

theorem occ_requeue_le (s : State) (c : Nat) (hocc : ∀ p, occCount s p ≤ 1)
    (hc0 : occCount s c = 0) (p : Nat) :
    (s.readyqueue.erase c ++ [c]).count p + wqCount s p ≤ 1 := by
  have hnm : c ∉ s.readyqueue := by
    intro hmem
    have hpos : 0 < s.readyqueue.count c := List.count_pos_iff.mpr hmem
    rw [occ_eq] at hc0
    omega
  rw [List.erase_of_not_mem hnm, List.count_append]
  have hle := hocc p
  rw [occ_eq] at hle hc0
  by_cases hpc : p = c
  · subst hpc
    rw [List.count_singleton_self]
    omega
  · have e : [c].count p = 0 := by
      rw [List.count_singleton', if_neg (Ne.symm hpc)]
    rw [e]
    omega

theorem wqCount_updRes_owner (s : State) (rid : Nat) (r : Resource) (ow : Option Nat)
    (hres : s.res rid = some r) (p : Nat) :
    wqCount (s.updRes rid (fun x => { x with owner := ow })) p = wqCount s p := by
  have hw := wqCount_updRes s rid (fun x => { x with owner := ow }) r hres p
  have hfr : ({ r with owner := ow } : Resource).waitqueue = r.waitqueue := rfl
  rw [hfr] at hw
  omega

theorem occ_updRes_owner (s : State) (rid : Nat) (r : Resource) (ow : Option Nat)
    (hres : s.res rid = some r) (p : Nat) :
    occCount (s.updRes rid (fun x => { x with owner := ow })) p = occCount s p := by
  rw [occ_eq, occ_eq, updRes_readyqueue, wqCount_updRes_owner s rid r ow hres p]

theorem fcfs_pick_step_ok (s : State) (h1 : ∀ p, occCount s p ≤ 1) :
    QueueOk { (fcfs_pick_next s).2 with current := (fcfs_pick_next s).1 } := by
  rcases hrq : s.readyqueue with _ | ⟨n, rest⟩
  · have e : fcfs_pick_next s = (none, s) := by simp only [fcfs_pick_next, hrq]
    rw [e]
    refine queueOk_of _ (fun p => h1 p) ?_
    intro c' hc' hb'
    exact absurd hc' (by simp)
  · have e : fcfs_pick_next s = (some n, { s with readyqueue := rest }) := by
      simp only [fcfs_pick_next, hrq]
    rw [e]
    exact pickHead_ok s n rest hrq h1

theorem rr_pick_step_ok (s : State) (h1 : ∀ p, occCount s p ≤ 1) :
    QueueOk { (rr_pick_next s).2 with current := (rr_pick_next s).1 } := by
  rcases hrq : s.readyqueue with _ | ⟨n, rest⟩
  · have e : rr_pick_next s = (none, s) := by simp only [rr_pick_next, hrq]
    rw [e]
    refine queueOk_of _ (fun p => h1 p) ?_
    intro c' hc' hb'
    exact absurd hc' (by simp)
  · have e : rr_pick_next s = (some n, { s with readyqueue := rest }) := by
      simp only [rr_pick_next, hrq]
    rw [e]
    exact pickHead_ok s n rest hrq h1

theorem sjf_pick_step_ok (s : State) (h1 : ∀ p, occCount s p ≤ 1) :
    QueueOk { (sjf_pick_next s).2 with current := (sjf_pick_next s).1 } := by
  rcases hrq : s.readyqueue with _ | ⟨n, t⟩
  · have e : sjf_pick_next s = (none, s) := by simp only [sjf_pick_next, hrq]
    rw [e]
    refine queueOk_of _ (fun p => h1 p) ?_
    intro c' hc' hb'
    exact absurd hc' (by simp)
  · have e : ∀ m, m = scanMin (fun i => (s.procD i).lifespan) n (n :: t) →
        sjf_pick_next s = (some m, { s with readyqueue := s.readyqueue.erase m }) := by
      intro m hm
      simp only [sjf_pick_next, hrq, hm]
    rw [e _ rfl]
    refine pickErase_ok s _ ?_ h1
    rw [hrq]
    exact (scanMin_head_split _ n t).1

theorem stcf_pick_step_ok (s : State) (h1 : ∀ p, occCount s p ≤ 1) :
    QueueOk { (stcf_pick_next s).2 with current := (stcf_pick_next s).1 } := by
  rcases hrq : s.readyqueue with _ | ⟨n, t⟩
  · have e : stcf_pick_next s = (none, s) := by simp only [stcf_pick_next, hrq]
    rw [e]
    refine queueOk_of _ (fun p => h1 p) ?_
    intro c' hc' hb'
    exact absurd hc' (by simp)
  · have e : ∀ m, m = scanMin (fun i => (s.procD i).lifespan) n (n :: t) →
        stcf_pick_next s = (some m, { s with readyqueue := s.readyqueue.erase m }) := by
      intro m hm
      simp only [stcf_pick_next, hrq, hm]
    rw [e _ rfl]
    refine pickErase_ok s _ ?_ h1
    rw [hrq]
    exact (scanMin_head_split _ n t).1

theorem prio_pick_step_ok (s : State) (h1 : ∀ p, occCount s p ≤ 1) :
    QueueOk { (prio_pick_next s).2 with current := (prio_pick_next s).1 } := by
  rcases hrq : s.readyqueue with _ | ⟨n, t⟩
  · have e : prio_pick_next s = (none, s) := by simp only [prio_pick_next, hrq]
    rw [e]
    refine queueOk_of _ (fun p => h1 p) ?_
    intro c' hc' hb'
    exact absurd hc' (by simp)
  · have e : ∀ m, m = scanMax (fun i => (s.procD i).prio) n (n :: t) →
        prio_pick_next s = (some m, { s with readyqueue := s.readyqueue.erase m }) := by
      intro m hm
      simp only [prio_pick_next, hrq, hm]
    rw [e _ rfl]
    refine pickErase_ok s _ ?_ h1
    rw [hrq]
    exact (scanMax_head_split _ n t).1

theorem pcp_pick_step_ok (s : State) (h1 : ∀ p, occCount s p ≤ 1) :
    QueueOk { (pcp_pick_next s).2 with current := (pcp_pick_next s).1 } := by
  rcases hrq : s.readyqueue with _ | ⟨n, t⟩
  · have e : pcp_pick_next s = (none, s) := by simp only [pcp_pick_next, hrq]
    rw [e]
    refine queueOk_of _ (fun p => h1 p) ?_
    intro c' hc' hb'
    exact absurd hc' (by simp)
  · have e : ∀ m, m = scanMax (fun i => (s.procD i).prio) n (n :: t) →
        pcp_pick_next s = (some m, { s with readyqueue := s.readyqueue.erase m }) := by
      intro m hm
      simp only [pcp_pick_next, hrq, hm]
    rw [e _ rfl]
    refine pickErase_ok s _ ?_ h1
    rw [hrq]
    exact (scanMax_head_split _ n t).1

theorem pa_pick_step_ok (s : State) (h1 : ∀ p, occCount s p ≤ 1) :
    QueueOk { (pa_pick_next s).2 with current := (pa_pick_next s).1 } := by
  rcases hrq : s.readyqueue with _ | ⟨n, t⟩
  · have e : pa_pick_next s = (none, s) := by simp only [pa_pick_next, hrq]
    rw [e]
    refine queueOk_of _ (fun p => h1 p) ?_
    intro c' hc' hb'
    exact absurd hc' (by simp)
  · have e : ∀ m, m = scanMax (fun i => (s.procD i).prio) n (n :: t) →
        pa_pick_next s = (some m,
          { s.updProc m (fun p => { p with prio := p.prio_orig }) with
            readyqueue := s.readyqueue.erase m }) := by
      intro m hm
      simp only [pa_pick_next, hrq, hm, updProc_readyqueue]
    rw [e _ rfl]
    refine pickErase_upd_ok s _ _ ?_ h1
    rw [hrq]
    exact (scanMax_head_split _ n t).1

theorem keepCurrent_ok (s : State) (c : Nat) (hcur : s.current = some c)
    (h : QueueOk s) : QueueOk { s with current := some c } := by
  refine queueOk_of _ (fun p => h.occ_le p) ?_
  intro c' hc' hb'
  have hcn : c' = c := by
    have e : ({ s with current := some c } : State).current = some c := rfl
    rw [e] at hc'
    exact (Option.some.inj hc').symm
  subst hcn
  exact h.cur_zero hcur hb'

theorem listModify_congr {α : Type} (l : List α) (i : Nat) (f f' : α → α) (r : α)
    (h : l.get? i = some r) (hf : f r = f' r) : listModify l i f = listModify l i f' := by
  induction l generalizing i with
  | nil => rfl
  | cons a l ih =>
    cases i with
    | zero =>
      simp only [List.get?] at h
      cases h
      simp only [listModify, hf]
    | succ k =>
      simp only [List.get?] at h
      simp only [listModify]
      rw [ih k h]

theorem updRes_congr (s : State) (rid : Nat) (f f' : Resource → Resource) (r : Resource)
    (h : s.res rid = some r) (hf : f r = f' r) : s.updRes rid f = s.updRes rid f' := by
  unfold State.updRes
  rw [listModify_congr s.resources rid f f' r h hf]

theorem wakeState_queueOk (sb : State) (rid w : Nat) (q : Resource)
    (hres : sb.res rid = some q) (hwmem : w ∈ q.waitqueue)
    (hocc : ∀ p, occCount sb p ≤ 1)
    (hcz : ∀ c', sb.current = some c' →
      ((wakeState sb rid w).procD c').status ≠ Status.BLOCKED → occCount sb c' = 0) :
    QueueOk (wakeState sb rid w) := by
  have hcount : 0 < q.waitqueue.count w := List.count_pos_iff.mpr hwmem
  have hwle : q.waitqueue.count w ≤ wqCount sb w := count_le_wqCount sb rid q hres w
  have hwkq : ∀ p, wqCount (wakeState sb rid w) p + q.waitqueue.count p
      = wqCount sb p + (q.waitqueue.erase w).count p := by
    intro p
    have he : wqCount (wakeState sb rid w) p
        = wqCount (sb.updRes rid (fun x => { x with waitqueue := x.waitqueue.erase w })) p :=
      rfl
    rw [he]
    exact wqCount_updRes sb rid _ q hres p
  have herase : ∀ p, (q.waitqueue.erase w).count p
      = q.waitqueue.count p - (if w = p then 1 else 0) := by
    intro p
    rw [List.count_erase]
    by_cases hwp : w = p
    · rw [if_pos (beq_iff_eq.mpr hwp), if_pos hwp]
    · rw [if_neg (by simpa using hwp), if_neg hwp]
  refine queueOk_of _ ?_ ?_
  · intro p
    have e1 : occCount (wakeState sb rid w) p
        = (sb.readyqueue ++ [w]).count p + wqCount (wakeState sb rid w) p := rfl
    rw [e1, List.count_append]
    have h1 := hwkq p
    rw [herase p] at h1
    have hle := hocc p
    rw [occ_eq] at hle
    by_cases hpw : p = w
    · subst hpw
      rw [List.count_singleton_self]
      have hite : (if p = p then (1 : Nat) else 0) = 1 := if_pos rfl
      rw [hite] at h1
      omega
    · have e2 : [w].count p = 0 := by
        rw [List.count_singleton', if_neg (fun he => hpw he.symm)]
      rw [e2]
      have hite : (if w = p then (1 : Nat) else 0) = 0 := if_neg (fun he => hpw he.symm)
      rw [hite] at h1
      omega
  · intro c' hc' hb'
    have hcur' : sb.current = some c' := hc'
    have hz := hcz c' hcur' hb'
    rw [occ_eq] at hz
    by_cases hcw : c' = w
    · subst hcw
      omega
    · have e1 : occCount (wakeState sb rid w) c'
          = (sb.readyqueue ++ [w]).count c' + wqCount (wakeState sb rid w) c' := rfl
      rw [e1, List.count_append]
      have e2 : [w].count c' = 0 := by
        rw [List.count_singleton', if_neg (fun he => hcw he.symm)]
      rw [e2]
      have h1 := hwkq c'
      rw [herase c'] at h1
      have hite : (if w = c' then (1 : Nat) else 0) = 0 := if_neg (fun he => hcw he.symm)
      rw [hite] at h1
      omega

theorem fcfs_schedule_queueOk (s : State) (h : QueueOk s) :
    QueueOk (schedStep fcfs_schedule s) := by
  have hpick : fcfs_schedule s = fcfs_pick_next s →
      QueueOk (schedStep fcfs_schedule s) := by
    intro e
    have e2 : schedStep fcfs_schedule s
        = { (fcfs_pick_next s).2 with current := (fcfs_pick_next s).1 } := by
      simp only [schedStep, e]
    rw [e2]
    exact fcfs_pick_step_ok s h.occ_le
  rcases hcur : s.current with _ | c
  · exact hpick (by simp only [fcfs_schedule, hcur])
  · by_cases hb : (s.procD c).status = Status.BLOCKED
    · refine hpick ?_
      simp only [fcfs_schedule, hcur]
      rw [if_pos hb]
    · by_cases hl : (s.procD c).age < (s.procD c).lifespan
      · have e : fcfs_schedule s = (some c, s) := by
          simp only [fcfs_schedule, hcur]
          rw [if_neg hb, if_pos hl]
        have e2 : schedStep fcfs_schedule s = { s with current := some c } := by
          simp only [schedStep, e]
        rw [e2]
        exact keepCurrent_ok s c hcur h
      · refine hpick ?_
        simp only [fcfs_schedule, hcur]
        rw [if_neg hb, if_neg hl]

theorem sjf_schedule_queueOk (s : State) (h : QueueOk s) :
    QueueOk (schedStep sjf_schedule s) := by
  have hpick : sjf_schedule s = sjf_pick_next s →
      QueueOk (schedStep sjf_schedule s) := by
    intro e
    have e2 : schedStep sjf_schedule s
        = { (sjf_pick_next s).2 with current := (sjf_pick_next s).1 } := by
      simp only [schedStep, e]
    rw [e2]
    exact sjf_pick_step_ok s h.occ_le
  rcases hcur : s.current with _ | c
  · exact hpick (by simp only [sjf_schedule, hcur])
  · by_cases hb : (s.procD c).status = Status.BLOCKED
    · refine hpick ?_
      simp only [sjf_schedule, hcur]
      rw [if_pos hb]
    · by_cases hl : (s.procD c).age < (s.procD c).lifespan
      · have e : sjf_schedule s = (some c, s) := by
          simp only [sjf_schedule, hcur]
          rw [if_neg hb, if_pos hl]
        have e2 : schedStep sjf_schedule s = { s with current := some c } := by
          simp only [schedStep, e]
        rw [e2]
        exact keepCurrent_ok s c hcur h
      · refine hpick ?_
        simp only [sjf_schedule, hcur]
        rw [if_neg hb, if_neg hl]

theorem rr_schedule_queueOk (s : State) (h : QueueOk s) :
    QueueOk (schedStep rr_schedule s) := by
  have hpickOn : ∀ s0 : State, rr_schedule s = rr_pick_next s0 →
      (∀ p, occCount s0 p ≤ 1) → QueueOk (schedStep rr_schedule s) := by
    intro s0 e h1
    have e2 : schedStep rr_schedule s
        = { (rr_pick_next s0).2 with current := (rr_pick_next s0).1 } := by
      simp only [schedStep, e]
    rw [e2]
    exact rr_pick_step_ok s0 h1
  rcases hcur : s.current with _ | c
  · exact hpickOn s (by simp only [rr_schedule, hcur]) h.occ_le
  · by_cases hb : (s.procD c).status = Status.BLOCKED
    · refine hpickOn s ?_ h.occ_le
      simp only [rr_schedule, hcur]
      rw [if_pos hb]
    · by_cases hl : (s.procD c).age < (s.procD c).lifespan
      · have hc0 : occCount s c = 0 := h.cur_zero hcur hb
        refine hpickOn { s with readyqueue := s.readyqueue.erase c ++ [c] } ?_
          (occ_requeue_le s c h.occ_le hc0)
        simp only [rr_schedule, hcur]
        rw [if_neg hb, if_pos hl]
      · refine hpickOn s ?_ h.occ_le
        simp only [rr_schedule, hcur]
        rw [if_neg hb, if_neg hl]

theorem pcp_schedule_queueOk (s : State) (h : QueueOk s) :
    QueueOk (schedStep pcp_schedule s) := by
  have hpickOn : ∀ s0 : State, pcp_schedule s = pcp_pick_next s0 →
      (∀ p, occCount s0 p ≤ 1) → QueueOk (schedStep pcp_schedule s) := by
    intro s0 e h1
    have e2 : schedStep pcp_schedule s
        = { (pcp_pick_next s0).2 with current := (pcp_pick_next s0).1 } := by
      simp only [schedStep, e]
    rw [e2]
    exact pcp_pick_step_ok s0 h1
  rcases hcur : s.current with _ | c
  · exact hpickOn s (by simp only [pcp_schedule, hcur]) h.occ_le
  · by_cases hb : (s.procD c).status = Status.BLOCKED
    · refine hpickOn s ?_ h.occ_le
      simp only [pcp_schedule, hcur]
      rw [if_pos hb]
    · by_cases hl : (s.procD c).age < (s.procD c).lifespan
      · have hc0 : occCount s c = 0 := h.cur_zero hcur hb
        refine hpickOn { s with readyqueue := s.readyqueue.erase c ++ [c] } ?_
          (occ_requeue_le s c h.occ_le hc0)
        simp only [pcp_schedule, hcur]
        rw [if_neg hb, if_pos hl]
      · refine hpickOn s ?_ h.occ_le
        simp only [pcp_schedule, hcur]
        rw [if_neg hb, if_neg hl]

theorem pa_schedule_queueOk (s : State) (h : QueueOk s) :
    QueueOk (schedStep pa_schedule s) := by
  have hpickOn : ∀ s0 : State, pa_schedule s = pa_pick_next s0 →
      (∀ p, occCount s0 p ≤ 1) → QueueOk (schedStep pa_schedule s) := by
    intro s0 e h1
    have e2 : schedStep pa_schedule s
        = { (pa_pick_next s0).2 with current := (pa_pick_next s0).1 } := by
      simp only [schedStep, e]
    rw [e2]
    exact pa_pick_step_ok s0 h1
  rcases hcur : s.current with _ | c
  · exact hpickOn s (by simp only [pa_schedule, hcur]) h.occ_le
  · by_cases hb : (s.procD c).status = Status.BLOCKED
    · refine hpickOn s ?_ h.occ_le
      simp only [pa_schedule, hcur]
      rw [if_pos hb]
    · by_cases hage : ((pa_age s).procD c).age < ((pa_age s).procD c).lifespan
      · have hc0 : occCount s c = 0 := h.cur_zero hcur hb
        refine hpickOn { pa_age s with
            readyqueue := (pa_age s).readyqueue.erase c ++ [c] } ?_
          (occ_requeue_le s c h.occ_le hc0)
        simp only [pa_schedule, hcur]
        rw [if_neg hb, if_pos hage]
      · refine hpickOn (pa_age s) ?_ h.occ_le
        simp only [pa_schedule, hcur]
        rw [if_neg hb, if_neg hage]

theorem prio_schedule_queueOk (s : State) (h : QueueOk s) :
    QueueOk (schedStep prio_schedule s) := by
  have hpickOn : ∀ s0 : State, prio_schedule s = prio_pick_next s0 →
      (∀ p, occCount s0 p ≤ 1) → QueueOk (schedStep prio_schedule s) := by
    intro s0 e h1
    have e2 : schedStep prio_schedule s
        = { (prio_pick_next s0).2 with current := (prio_pick_next s0).1 } := by
      simp only [schedStep, e]
    rw [e2]
    exact prio_pick_step_ok s0 h1
  rcases hcur : s.current with _ | c
  · exact hpickOn s (by simp only [prio_schedule, hcur]) h.occ_le
  · by_cases hb : (s.procD c).status = Status.BLOCKED
    · refine hpickOn s ?_ h.occ_le
      simp only [prio_schedule, hcur]
      rw [if_pos hb]
    · by_cases hl : (s.procD c).age < (s.procD c).lifespan
      · have hc0 : occCount s c = 0 := h.cur_zero hcur hb
        have hnm : c ∉ s.readyqueue := by
          intro hmem
          have hpos := List.count_pos_iff.mpr hmem
          rw [occ_eq] at hc0
          omega
        rcases hrq : s.readyqueue with _ | ⟨t0, rest⟩
        · have e : prio_schedule s = (some c, { s with readyqueue := [] }) := by
            simp only [prio_schedule, hcur]
            rw [if_neg hb, if_pos hl, hrq]
            rfl
          have e2 : schedStep prio_schedule s
              = { s with readyqueue := [], current := some c } := by
            simp only [schedStep, e]
          rw [e2]
          refine queueOk_of _ ?_ ?_
          · intro p
            have hle := h.occ_le p
            rw [occ_eq] at hle
            have ee : occCount { s with
                readyqueue := ([] : List Nat), current := some c } p
                = ([] : List Nat).count p + wqCount s p := rfl
            rw [ee, List.count_nil]
            omega
          · intro c' hc' hb'
            have hcn : c' = c := by
              have ee : ({ s with
                  readyqueue := ([] : List Nat), current := some c } : State).current
                  = some c := rfl
              rw [ee] at hc'
              exact (Option.some.inj hc').symm
            subst hcn
            have ee : occCount { s with
                readyqueue := ([] : List Nat), current := some c' } c'
                = ([] : List Nat).count c' + wqCount s c' := rfl
            rw [ee, List.count_nil]
            rw [occ_eq] at hc0
            omega
        · have hct : c ≠ t0 := by
            intro he
            exact hnm (by rw [he, hrq]; exact List.mem_cons_self _ _)
          refine hpickOn { s with readyqueue := c :: s.readyqueue } ?_ ?_
          · simp only [prio_schedule, hcur]
            rw [if_neg hb, if_pos hl, hrq, prio_cont_cons_ne c t0 rest hct]
          · exact occ_consHead_le s c h.occ_le hc0
      · refine hpickOn s ?_ h.occ_le
        simp only [prio_schedule, hcur]
        rw [if_neg hb, if_neg hl]

theorem stcf_schedule_queueOk (s : State) (h : QueueOk s) :
    QueueOk (schedStep stcf_schedule s) := by
  have hpick : stcf_schedule s = stcf_pick_next s →
      QueueOk (schedStep stcf_schedule s) := by
    intro e
    have e2 : schedStep stcf_schedule s
        = { (stcf_pick_next s).2 with current := (stcf_pick_next s).1 } := by
      simp only [schedStep, e]
    rw [e2]
    exact stcf_pick_step_ok s h.occ_le
  rcases hcur : s.current with _ | c
  · exact hpick (by simp only [stcf_schedule, hcur])
  · by_cases hb : (s.procD c).status = Status.BLOCKED
    · refine hpick ?_
      simp only [stcf_schedule, hcur]
      rw [if_pos hb]
    · by_cases hl : (s.procD c).age < (s.procD c).lifespan
      · rcases hscan : stcf_preempt_scan s (s.procD c) s.readyqueue with _ | n
        · have e : stcf_schedule s = (some c, s) := by
            simp only [stcf_schedule, hcur]
            rw [if_neg hb, if_pos hl, hscan]
          have e2 : schedStep stcf_schedule s = { s with current := some c } := by
            simp only [schedStep, e]
          rw [e2]
          exact keepCurrent_ok s c hcur h
        · have hc0 : occCount s c = 0 := h.cur_zero hcur hb
          rcases stcf_scan_some s (s.procD c) s.readyqueue n hscan with ⟨hmem, _, _⟩
          have e : stcf_schedule s
              = (some n,
                { ({ s.updProc n (fun p => { p with status := Status.READY }) with
                    readyqueue := c :: s.readyqueue }).updProc c
                    (fun p => { p with status := Status.BLOCKED }) with
                  readyqueue := (c :: s.readyqueue).erase n, current := some n }) := by
            simp only [stcf_schedule, hcur]
            rw [if_neg hb, if_pos hl, hscan]
            rfl
          have e2 : schedStep stcf_schedule s
              = { ({ s.updProc n (fun p => { p with status := Status.READY }) with
                  readyqueue := c :: s.readyqueue }).updProc c
                  (fun p => { p with status := Status.BLOCKED }) with
                readyqueue := (c :: s.readyqueue).erase n, current := some n } := by
            simp only [schedStep, e]
          rw [e2]
          have h1s3 : ∀ p,
              occCount (({ s.updProc n (fun p => { p with status := Status.READY }) with
                readyqueue := c :: s.readyqueue }).updProc c
                (fun p => { p with status := Status.BLOCKED })) p ≤ 1 := by
            intro p
            have hx := occ_consHead_le s c h.occ_le hc0 p
            exact hx
          have hm3 : n ∈ (({ s.updProc n (fun p => { p with status := Status.READY }) with
              readyqueue := c :: s.readyqueue }).updProc c
              (fun p => { p with status := Status.BLOCKED })).readyqueue :=
            List.mem_cons_of_mem c hmem
          exact pickErase_ok _ n hm3 h1s3
      · refine hpick ?_
        simp only [stcf_schedule, hcur]
        rw [if_neg hb, if_neg hl]

theorem fcfs_acquire_queueOk (s : State) (rid c : Nat) (b : Bool) (s' : State)
    (hcur : s.current = some c) (hsome : (s.proc c).isSome)
    (hb : (s.procD c).status ≠ Status.BLOCKED)
    (heq : fcfs_acquire s rid = some (b, s')) (h : QueueOk s) : QueueOk s' := by
  rcases hres : s.res rid with _ | r
  · rw [show fcfs_acquire s rid = none from by simp only [fcfs_acquire, hcur, hres]] at heq
    exact absurd heq (by simp)
  · rcases hown : r.owner with _ | o
    · have e : fcfs_acquire s rid
          = some (true, s.updRes rid (fun x => { x with owner := some c })) := by
        simp only [fcfs_acquire, hcur, hres, hown]
      rw [e] at heq
      have hs' : s' = s.updRes rid (fun x => { x with owner := some c }) :=
        ((Prod.ext_iff.mp (Option.some.inj heq)).2).symm
      subst hs'
      refine queueOk_of _ ?_ ?_
      · intro p
        rw [occ_updRes_owner s rid r _ hres p]
        exact h.occ_le p
      · intro c' hc' hb'
        rw [occ_updRes_owner s rid r _ hres c']
        exact h.cur_zero hc' hb'
    · have e : fcfs_acquire s rid
          = some (false,
            (s.updProc c (fun p => { p with status := Status.BLOCKED })).updRes rid
              (fun x => { x with waitqueue := x.waitqueue ++ [c] })) := by
        simp only [fcfs_acquire, hcur, hres, hown]
      rw [e] at heq
      have hs' : s' = (s.updProc c (fun p => { p with status := Status.BLOCKED })).updRes
          rid (fun x => { x with waitqueue := x.waitqueue ++ [c] }) :=
        ((Prod.ext_iff.mp (Option.some.inj heq)).2).symm
      subst hs'
      have hres1 : (s.updProc c (fun p => { p with status := Status.BLOCKED })).res rid
          = some r := hres
      have hwq : ∀ p, wqCount ((s.updProc c (fun p => { p with status := Status.BLOCKED })).updRes
          rid (fun x => { x with waitqueue := x.waitqueue ++ [c] })) p
          = wqCount s p + (if c = p then 1 else 0) := by
        intro p
        have hw := wqCount_updRes (s.updProc c (fun p => { p with status := Status.BLOCKED }))
          rid (fun x => { x with waitqueue := x.waitqueue ++ [c] }) r hres1 p
        have hfr : ((fun (x : Resource) => { x with waitqueue := x.waitqueue ++ [c] })
            r).waitqueue = r.waitqueue ++ [c] := rfl
        rw [hfr, List.count_append, List.count_singleton'] at hw
        have hb2 : wqCount (s.updProc c (fun p => { p with status := Status.BLOCKED })) p
            = wqCount s p := rfl
        rw [hb2] at hw
        omega
      have hc0 : occCount s c = 0 := h.cur_zero hcur hb
      refine queueOk_of _ ?_ ?_
      · intro p
        have e1 : occCount ((s.updProc c (fun p => { p with status := Status.BLOCKED })).updRes
            rid (fun x => { x with waitqueue := x.waitqueue ++ [c] })) p
            = s.readyqueue.count p
              + wqCount ((s.updProc c (fun p => { p with status := Status.BLOCKED })).updRes
                rid (fun x => { x with waitqueue := x.waitqueue ++ [c] })) p := rfl
        rw [e1, hwq p]
        have hle := h.occ_le p
        rw [occ_eq] at hle
        rw [occ_eq] at hc0
        by_cases hpc : c = p
        · subst hpc
          rw [if_pos rfl]
          omega
        · rw [if_neg hpc]
          omega
      · intro c' hc' hb'
        have hcc : c' = c := by
          have e2 : ((s.updProc c (fun p => { p with status := Status.BLOCKED })).updRes
              rid (fun x => { x with waitqueue := x.waitqueue ++ [c] })).current
              = s.current := rfl
          rw [e2, hcur] at hc'
          exact (Option.some.inj hc').symm
        subst hcc
        have hD : ((s.updProc c' (fun p => { p with status := Status.BLOCKED })).updRes
            rid (fun x => { x with waitqueue := x.waitqueue ++ [c'] })).procD c'
            = { s.procD c' with status := Status.BLOCKED } := by
          rw [procD_updRes, procD_updProc_self s c'
            (fun p => { p with status := Status.BLOCKED }) (fun _ => rfl) hsome]
        rw [hD] at hb'
        exact absurd rfl hb'

theorem pcp_acquire_queueOk (s : State) (rid c : Nat) (b : Bool) (s' : State)
    (hcur : s.current = some c) (hsome : (s.proc c).isSome)
    (hb : (s.procD c).status ≠ Status.BLOCKED)
    (heq : pcp_acquire s rid = some (b, s')) (h : QueueOk s) : QueueOk s' := by
  rcases hres : s.res rid with _ | r
  · rw [show pcp_acquire s rid = none from by simp only [pcp_acquire, hcur, hres]] at heq
    exact absurd heq (by simp)
  · rcases hown : r.owner with _ | o
    · have e : pcp_acquire s rid
          = some (true, (s.updRes rid (fun x => { x with owner := some c })).updProc c
            (fun p => { p with prio := maxPrio })) := by
        simp only [pcp_acquire, hcur, hres, hown]
      rw [e] at heq
      have hs' : s' = (s.updRes rid (fun x => { x with owner := some c })).updProc c
          (fun p => { p with prio := maxPrio }) :=
        ((Prod.ext_iff.mp (Option.some.inj heq)).2).symm
      subst hs'
      refine queueOk_of _ ?_ ?_
      · intro p
        have e1 : occCount ((s.updRes rid (fun x => { x with owner := some c })).updProc c
            (fun p => { p with prio := maxPrio })) p
            = occCount (s.updRes rid (fun x => { x with owner := some c })) p := rfl
        rw [e1, occ_updRes_owner s rid r _ hres p]
        exact h.occ_le p
      · intro c' hc' hb'
        have hcc : c' = c := by
          have e2 : ((s.updRes rid (fun x => { x with owner := some c })).updProc c
              (fun p => { p with prio := maxPrio })).current = s.current := rfl
          rw [e2, hcur] at hc'
          exact (Option.some.inj hc').symm
        subst hcc
        have e1 : occCount ((s.updRes rid (fun x => { x with owner := some c' })).updProc c'
            (fun p => { p with prio := maxPrio })) c'
            = occCount (s.updRes rid (fun x => { x with owner := some c' })) c' := rfl
        rw [e1, occ_updRes_owner s rid r _ hres c']
        exact h.cur_zero hcur hb
    · have e : pcp_acquire s rid
          = some (false,
            (s.updProc c (fun p => { p with status := Status.BLOCKED })).updRes rid
              (fun x => { x with waitqueue := x.waitqueue ++ [c] })) := by
        simp only [pcp_acquire, hcur, hres, hown]
      rw [e] at heq
      have heq2 : fcfs_acquire s rid = some (false,
          (s.updProc c (fun p => { p with status := Status.BLOCKED })).updRes rid
            (fun x => { x with waitqueue := x.waitqueue ++ [c] })) := by
        simp only [fcfs_acquire, hcur, hres, hown]
      have hs' : s' = (s.updProc c (fun p => { p with status := Status.BLOCKED })).updRes
          rid (fun x => { x with waitqueue := x.waitqueue ++ [c] }) :=
        ((Prod.ext_iff.mp (Option.some.inj heq)).2).symm
      have hb' : b = false := (Prod.ext_iff.mp (Option.some.inj heq)).1.symm
      refine fcfs_acquire_queueOk s rid c false s' hcur hsome hb ?_ h
      rw [heq2, hs']

theorem fcfs_release_queueOk (s : State) (rid c : Nat) (s' : State)
    (hcur : s.current = some c) (hsome : (s.proc c).isSome)
    (hb : (s.procD c).status ≠ Status.BLOCKED)
    (heq : fcfs_release s rid = some s') (h : QueueOk s) : QueueOk s' := by
  rcases hres : s.res rid with _ | r
  · rw [show fcfs_release s rid = none from by simp only [fcfs_release, hcur, hres]] at heq
    exact absurd heq (by simp)
  · by_cases hown : r.owner = some c
    · rcases hwq : r.waitqueue with _ | ⟨w, ws⟩
      · have e := fcfs_release_empty s c rid r hcur hres hown hwq
        rw [e] at heq
        have hs' : s' = s.updRes rid (fun x => { x with owner := none }) :=
          (Option.some.inj heq).symm
        subst hs'
        refine queueOk_of _ ?_ ?_
        · intro p
          rw [occ_updRes_owner s rid r _ hres p]
          exact h.occ_le p
        · intro c' hc' hb'
          rw [occ_updRes_owner s rid r _ hres c']
          exact h.cur_zero hc' hb'
      · by_cases hgw : ((s.updRes rid (fun x => { x with owner := none })).procD w).status
            = Status.BLOCKED
        · have e : fcfs_release s rid
              = some { ((s.updRes rid (fun x => { x with owner := none })).updRes rid
                  (fun x => { x with waitqueue := ws })).updProc w
                  (fun p => { p with status := Status.READY }) with
                readyqueue := s.readyqueue ++ [w] } := by
            simp only [fcfs_release, hcur, hres, hwq]
            rw [if_pos hown, if_pos hgw]
            rfl
          rw [e] at heq
          have hs' : s' = { ((s.updRes rid (fun x => { x with owner := none })).updRes rid
              (fun x => { x with waitqueue := ws })).updProc w
              (fun p => { p with status := Status.READY }) with
            readyqueue := s.readyqueue ++ [w] } := (Option.some.inj heq).symm
          subst hs'
          have hres1 : (s.updRes rid (fun x => { x with owner := none })).res rid
              = some { r with owner := none } := res_updRes_self s rid _ r hres
          have hconv : (s.updRes rid (fun x => { x with owner := none })).updRes rid
                (fun x => { x with waitqueue := ws })
              = (s.updRes rid (fun x => { x with owner := none })).updRes rid
                (fun x => { x with waitqueue := x.waitqueue.erase w }) := by
            refine updRes_congr _ rid _ _ { r with owner := none } hres1 ?_
            have hew : ({ r with owner := none } : Resource).waitqueue.erase w = ws := by
              show r.waitqueue.erase w = ws
              rw [hwq, List.erase_cons_head]
            show ({ { r with owner := none } with waitqueue := ws } : Resource)
                = { { r with owner := none } with
                    waitqueue := ({ r with owner := none } : Resource).waitqueue.erase w }
            rw [hew]
          rw [hconv]
          refine wakeState_queueOk (s.updRes rid (fun x => { x with owner := none })) rid w
            { r with owner := none } hres1 ?_ ?_ ?_
          · show w ∈ r.waitqueue
            rw [hwq]
            exact List.mem_cons_self _ _
          · intro p
            rw [occ_updRes_owner s rid r _ hres p]
            exact h.occ_le p
          · intro c' hc' hb'
            have hcs : s.current = some c' := hc'
            have hcc : c' = c := by
              rw [hcur] at hcs
              exact (Option.some.inj hcs).symm
            subst hcc
            rw [occ_updRes_owner s rid r _ hres c']
            exact h.cur_zero hcur hb
        · rw [show fcfs_release s rid = none from by
            simp only [fcfs_release, hcur, hres, hwq]
            rw [if_pos hown, if_neg hgw]] at heq
          exact absurd heq (by simp)
    · rw [show fcfs_release s rid = none from by
        simp only [fcfs_release, hcur, hres]
        rw [if_neg hown]] at heq
      exact absurd heq (by simp)

theorem prio_release_queueOk (s : State) (rid c : Nat) (s' : State)
    (hcur : s.current = some c) (hsome : (s.proc c).isSome)
    (hb : (s.procD c).status ≠ Status.BLOCKED)
    (heq : prio_release s rid = some s') (h : QueueOk s) : QueueOk s' := by
  rcases hres : s.res rid with _ | r
  · rw [show prio_release s rid = none from by simp only [prio_release, hcur, hres]] at heq
    exact absurd heq (by simp)
  · by_cases hown : r.owner = some c
    · rcases hwq : r.waitqueue with _ | ⟨w0, ws⟩
      · have e := prio_release_empty s c rid r hcur hres hown hwq
        rw [e] at heq
        have hs' : s' = s.updRes rid (fun x => { x with owner := none }) :=
          (Option.some.inj heq).symm
        subst hs'
        refine queueOk_of _ ?_ ?_
        · intro p
          rw [occ_updRes_owner s rid r _ hres p]
          exact h.occ_le p
        · intro c' hc' hb'
          rw [occ_updRes_owner s rid r _ hres c']
          exact h.cur_zero hc' hb'
      · by_cases hgw : ((s.updRes rid (fun x => { x with owner := none })).procD
            (scanMax (fun i =>
              ((s.updRes rid (fun x => { x with owner := none })).procD i).prio)
              w0 (w0 :: ws))).status = Status.BLOCKED
        · have e := prio_release_wake s c rid r w0 ws hcur hres hown hwq hgw
          rw [e] at heq
          have hs' : s' = wakeState (s.updRes rid (fun x => { x with owner := none })) rid
              (scanMax (fun i =>
                ((s.updRes rid (fun x => { x with owner := none })).procD i).prio)
                w0 (w0 :: ws)) := (Option.some.inj heq).symm
          subst hs'
          have hres1 : (s.updRes rid (fun x => { x with owner := none })).res rid
              = some { r with owner := none } := res_updRes_self s rid _ r hres
          refine wakeState_queueOk _ rid _ { r with owner := none } hres1 ?_ ?_ ?_
          · show scanMax (fun i =>
                ((s.updRes rid (fun x => { x with owner := none })).procD i).prio)
                w0 (w0 :: ws) ∈ r.waitqueue
            rw [hwq]
            exact (scanMax_head_split _ w0 ws).1
          · intro p
            rw [occ_updRes_owner s rid r _ hres p]
            exact h.occ_le p
          · intro c' hc' hb'
            have hcs : s.current = some c' := hc'
            have hcc : c' = c := by
              rw [hcur] at hcs
              exact (Option.some.inj hcs).symm
            subst hcc
            rw [occ_updRes_owner s rid r _ hres c']
            exact h.cur_zero hcur hb
        · rw [show prio_release s rid = none from by
            simp only [prio_release, hcur, hres, hwq]
            rw [if_pos hown, if_neg hgw]] at heq
          exact absurd heq (by simp)
    · rw [show prio_release s rid = none from by
        simp only [prio_release, hcur, hres]
        rw [if_neg hown]] at heq
      exact absurd heq (by simp)

theorem pcp_release_queueOk (s : State) (rid c : Nat) (s' : State)
    (hcur : s.current = some c) (hsome : (s.proc c).isSome)
    (hb : (s.procD c).status ≠ Status.BLOCKED)
    (heq : pcp_release s rid = some s') (h : QueueOk s) : QueueOk s' := by
  rcases hres : s.res rid with _ | r
  · rw [show pcp_release s rid = none from by simp only [pcp_release, hcur, hres]] at heq
    exact absurd heq (by simp)
  · by_cases hown : r.owner = some c
    · rcases hwq : r.waitqueue with _ | ⟨w0, ws⟩
      · have e := pcp_release_empty s c rid r hcur hres hown hwq
        rw [e] at heq
        have hs' : s' = (s.updProc c (fun p => { p with prio := p.prio_orig })).updRes rid
            (fun x => { x with owner := none }) := (Option.some.inj heq).symm
        subst hs'
        have hres0 : (s.updProc c (fun p => { p with prio := p.prio_orig })).res rid
            = some r := hres
        refine queueOk_of _ ?_ ?_
        · intro p
          rw [occ_updRes_owner (s.updProc c (fun p => { p with prio := p.prio_orig }))
            rid r _ hres0 p]
          exact h.occ_le p
        · intro c' hc' hb'
          have hcs : s.current = some c' := hc'
          have hcc : c' = c := by
            rw [hcur] at hcs
            exact (Option.some.inj hcs).symm
          subst hcc
          rw [occ_updRes_owner (s.updProc c' (fun p => { p with prio := p.prio_orig }))
            rid r _ hres0 c']
          exact h.cur_zero hcur hb
      · by_cases hgw : (((s.updProc c (fun p => { p with prio := p.prio_orig })).updRes rid
            (fun x => { x with owner := none })).procD
            (scanMax (fun i =>
              (((s.updProc c (fun p => { p with prio := p.prio_orig })).updRes rid
                (fun x => { x with owner := none })).procD i).prio)
              w0 (w0 :: ws))).status = Status.BLOCKED
        · have e := pcp_release_wake s c rid r w0 ws hcur hres hown hwq hgw
          rw [e] at heq
          have hs' : s' = wakeState ((s.updProc c
              (fun p => { p with prio := p.prio_orig })).updRes rid
              (fun x => { x with owner := none })) rid
              (scanMax (fun i =>
                (((s.updProc c (fun p => { p with prio := p.prio_orig })).updRes rid
                  (fun x => { x with owner := none })).procD i).prio)
                w0 (w0 :: ws)) := (Option.some.inj heq).symm
          subst hs'
          have hres0 : (s.updProc c (fun p => { p with prio := p.prio_orig })).res rid
              = some r := hres
          have hres1 : ((s.updProc c (fun p => { p with prio := p.prio_orig })).updRes rid
              (fun x => { x with owner := none })).res rid
              = some { r with owner := none } :=
            res_updRes_self (s.updProc c (fun p => { p with prio := p.prio_orig })) rid _ r
              hres0
          refine wakeState_queueOk _ rid _ { r with owner := none } hres1 ?_ ?_ ?_
          · show scanMax (fun i =>
                (((s.updProc c (fun p => { p with prio := p.prio_orig })).updRes rid
                  (fun x => { x with owner := none })).procD i).prio)
                w0 (w0 :: ws) ∈ r.waitqueue
            rw [hwq]
            exact (scanMax_head_split _ w0 ws).1
          · intro p
            rw [occ_updRes_owner (s.updProc c (fun p => { p with prio := p.prio_orig }))
              rid r _ hres0 p]
            exact h.occ_le p
          · intro c' hc' hb'
            have hcs : s.current = some c' := hc'
            have hcc : c' = c := by
              rw [hcur] at hcs
              exact (Option.some.inj hcs).symm
            subst hcc
            rw [occ_updRes_owner (s.updProc c' (fun p => { p with prio := p.prio_orig }))
              rid r _ hres0 c']
            exact h.cur_zero hcur hb
        · rw [show pcp_release s rid = none from by
            simp only [pcp_release, hcur, hres, hwq]
            rw [if_pos hown, if_neg hgw]] at heq
          exact absurd heq (by simp)
    · rw [show pcp_release s rid = none from by
        simp only [pcp_release, hcur, hres]
        rw [if_neg hown]] at heq
      exact absurd heq (by simp)

theorem dropCurrent_ok (s s2 : State) (hp : s2.procs = s.procs)
    (hr : s2.readyqueue = s.readyqueue) (hq : s2.resources = s.resources)
    (hc : s2.current = none) (h : QueueOk s) : QueueOk s2 := by
  have hocceq : ∀ p, occCount s2 p = occCount s p := by
    intro p
    rw [occ_eq, occ_eq, hr]
    unfold wqCount
    rw [hq]
  refine queueOk_of _ (fun p => by rw [hocceq p]; exact h.occ_le p) ?_
  intro c' hc' hb'
  rw [hc] at hc'
  exact absurd hc' (by simp)

/-- C1 counterexample.  Running pid 1 has remaining time 8 and the ready
queue holds pids 2 and 3 with remaining times 2 and 3; `stcf_schedule`
preempts in favour of pid 2, but the demoted process ends the call marked
BLOCKED — not READY, as the claim states — and it is inserted at the
ready-queue *head*, not appended at the tail: the resulting ready queue is
[1, 3] rather than [3, 1]. -/
theorem C1_stcf_preemption_cex :
    (stcf_schedule stcfCex).1 = some 2 ∧
    ((stcf_schedule stcfCex).2.procD 1).status = Status.BLOCKED ∧
    Status.BLOCKED ≠ Status.READY ∧
    (stcf_schedule stcfCex).2.readyqueue = [1, 3] ∧
    (stcf_schedule stcfCex).2.readyqueue ≠ [3, 1] := by decide

/-- C1 (amended).  STCF preemption: when the running process has remaining
lifetime and the ready queue holds a process with strictly smaller
remaining time, `stcf_schedule` preempts in favour of the first such
process in queue order: that process is marked READY, detached, and
returned to run this tick, while the demoted process is marked BLOCKED
(not READY) and inserted at the ready-queue head (not the tail).  When no
ready process has strictly smaller remaining time (ties included), no
preemption occurs and the current process is returned with the state
unchanged. -/
theorem C1_stcf_preemption (s : State) (c : Nat)
    (hc : s.current = some c) (hsome : (s.proc c).isSome)
    (hb : (s.procD c).status ≠ Status.BLOCKED)
    (hl : (s.procD c).age < (s.procD c).lifespan)
    (hnm : c ∉ s.readyqueue)
    (hws : ∀ x ∈ s.readyqueue, (s.proc x).isSome) :
    (∀ n, stcf_preempt_scan s (s.procD c) s.readyqueue = some n →
      n ∈ s.readyqueue ∧
      (s.procD c).lifespan - (s.procD c).age
        > (s.procD n).lifespan - (s.procD n).age ∧
      (∃ u v, s.readyqueue = u ++ n :: v ∧
        ∀ x ∈ u, ¬((s.procD c).lifespan - (s.procD c).age
          > (s.procD x).lifespan - (s.procD x).age)) ∧
      ∃ s', stcf_schedule s = (some n, s') ∧
        s'.current = some n ∧
        s'.readyqueue = c :: s.readyqueue.erase n ∧
        (s'.procD n).status = Status.READY ∧
        (s'.procD c).status = Status.BLOCKED) ∧
    ((∀ x ∈ s.readyqueue, ¬((s.procD c).lifespan - (s.procD c).age
        > (s.procD x).lifespan - (s.procD x).age)) →
      stcf_schedule s = (some c, s)) := by
  constructor
  · intro n hscan
    rcases stcf_scan_some s (s.procD c) s.readyqueue n hscan with ⟨hmem, hlt, u, v, hsp, hu⟩
    have hnc : n ≠ c := fun he => hnm (he ▸ hmem)
    have heq : stcf_schedule s
        = (some n,
          { ({ s.updProc n (fun p => { p with status := Status.READY }) with
              readyqueue := c :: s.readyqueue }).updProc c
              (fun p => { p with status := Status.BLOCKED }) with
            readyqueue := (c :: s.readyqueue).erase n, current := some n }) := by
      simp only [stcf_schedule, hc]
      rw [if_neg hb, if_pos hl, hscan]
      rfl
    refine ⟨hmem, hlt, ⟨u, v, hsp, hu⟩, _, heq, rfl, ?_, ?_, ?_⟩
    · show (c :: s.readyqueue).erase n = c :: s.readyqueue.erase n
      have hcn : ¬(c == n) = true := by
        simp only [beq_iff_eq]
        exact fun he => hnc he.symm
      rw [List.erase_cons, if_neg hcn]
    · show ((({ s.updProc n (fun p => { p with status := Status.READY }) with
          readyqueue := c :: s.readyqueue }).updProc c
          (fun p => { p with status := Status.BLOCKED })).procD n).status = Status.READY
      rw [procD_updProc_ne ({ s.updProc n (fun p => { p with status := Status.READY }) with
          readyqueue := c :: s.readyqueue }) c n
          (fun p => { p with status := Status.BLOCKED }) (fun _ => rfl) hnc]
      show ((s.updProc n (fun p => { p with status := Status.READY })).procD n).status
          = Status.READY
      rw [procD_updProc_self s n (fun p => { p with status := Status.READY })
        (fun _ => rfl) (hws n hmem)]
    · show ((({ s.updProc n (fun p => { p with status := Status.READY }) with
          readyqueue := c :: s.readyqueue }).updProc c
          (fun p => { p with status := Status.BLOCKED })).procD c).status = Status.BLOCKED
      have hY : (({ s.updProc n (fun p => { p with status := Status.READY }) with
          readyqueue := c :: s.readyqueue } : State).proc c).isSome := by
        show ((s.updProc n (fun p => { p with status := Status.READY })).proc c).isSome
        rw [proc_updProc_ne s n c (fun p => { p with status := Status.READY })
          (fun _ => rfl) (fun he => hnc he.symm)]
        exact hsome
      rw [procD_updProc_self ({ s.updProc n (fun p => { p with status := Status.READY }) with
          readyqueue := c :: s.readyqueue }) c
          (fun p => { p with status := Status.BLOCKED }) (fun _ => rfl) hY]
  · intro hall
    have hnone : stcf_preempt_scan s (s.procD c) s.readyqueue = none :=
      (stcf_scan_none s (s.procD c) s.readyqueue).mpr hall
    simp only [stcf_schedule, hc]
    rw [if_neg hb, if_pos hl, hnone]

/-- C1 witness: the amended preemption statement instantiated at the
concrete state (preempts for pid 2, head insertion, BLOCKED marking). -/
theorem C1_stcf_preemption_witness :
    (∀ n, stcf_preempt_scan stcfCex (stcfCex.procD 1) stcfCex.readyqueue = some n →
      n ∈ stcfCex.readyqueue ∧
      (stcfCex.procD 1).lifespan - (stcfCex.procD 1).age
        > (stcfCex.procD n).lifespan - (stcfCex.procD n).age ∧
      (∃ u v, stcfCex.readyqueue = u ++ n :: v ∧
        ∀ x ∈ u, ¬((stcfCex.procD 1).lifespan - (stcfCex.procD 1).age
          > (stcfCex.procD x).lifespan - (stcfCex.procD x).age)) ∧
      ∃ s', stcf_schedule stcfCex = (some n, s') ∧
        s'.current = some n ∧
        s'.readyqueue = 1 :: stcfCex.readyqueue.erase n ∧
        (s'.procD n).status = Status.READY ∧
        (s'.procD 1).status = Status.BLOCKED) ∧
    ((∀ x ∈ stcfCex.readyqueue, ¬((stcfCex.procD 1).lifespan - (stcfCex.procD 1).age
        > (stcfCex.procD x).lifespan - (stcfCex.procD x).age)) →
      stcf_schedule stcfCex = (some 1, stcfCex)) :=
  C1_stcf_preemption stcfCex 1 rfl (by decide) (by decide) (by decide) (by decide)
    (by decide)

/-- C2 counterexample.  `pa_schedule` is called with no current process and
ready pids [1, 2] (priorities [5, 3]); pid 1 is selected, but pid 2's
priority stays 3 — the aging increment the claim promises for every tick
does not happen, because the no-current path jumps straight to the pick. -/
theorem C2_pa_aging_cex :
    (pa_schedule paCex).1 = some 1 ∧
    ((pa_schedule paCex).2.procD 2).prio = 3 ∧
    ((pa_schedule paCex).2.procD 2).prio ≠ (paCex.procD 2).prio + 1 := by decide

/-- C2 (amended).  Priority + Aging: on a schedule call with an existing,
non-BLOCKED current process, every ready process's `prio` is incremented by
exactly one before selection, the selected ready process's `prio` is reset
to `prio_orig` during the call, and if the requeued current process itself
is selected its `prio` is likewise reset to `prio_orig` (first conjunct).
On a call with no current process or a BLOCKED one, the aging loop is
skipped: the selected process's `prio` is still reset to `prio_orig`, while
an unselected ready process's `prio` is unchanged (second conjunct). -/
theorem C2_pa_aging (s : State) :
    (∀ c, s.current = some c → (s.procD c).status ≠ Status.BLOCKED →
      c ∉ s.readyqueue → (s.proc c).isSome →
      (∀ q ∈ s.readyqueue, (s.proc q).isSome →
        ((pa_schedule s).1 = some q →
          ((pa_schedule s).2.procD q).prio = (s.procD q).prio_orig) ∧
        ((pa_schedule s).1 ≠ some q →
          ((pa_schedule s).2.procD q).prio = (s.procD q).prio + 1)) ∧
      ((pa_schedule s).1 = some c →
        ((pa_schedule s).2.procD c).prio = (s.procD c).prio_orig)) ∧
    ((s.current = none ∨ ∃ c, s.current = some c ∧ (s.procD c).status = Status.BLOCKED) →
      ∀ q, (s.proc q).isSome →
        ((pa_schedule s).1 = some q →
          ((pa_schedule s).2.procD q).prio = (s.procD q).prio_orig) ∧
        (q ∈ s.readyqueue → (pa_schedule s).1 ≠ some q →
          ((pa_schedule s).2.procD q).prio = (s.procD q).prio)) := by
  constructor
  · intro c hc hb hnm hcsome
    constructor
    · intro q hq hqsome
      have key : ∀ sX : State, pa_schedule s = pa_pick_next sX →
          sX.readyqueue ≠ [] → (sX.proc q).isSome →
          sX.procD q = { s.procD q with prio := (s.procD q).prio + 1 } →
          ((pa_schedule s).1 = some q →
            ((pa_schedule s).2.procD q).prio = (s.procD q).prio_orig) ∧
          ((pa_schedule s).1 ≠ some q →
            ((pa_schedule s).2.procD q).prio = (s.procD q).prio + 1) := by
        intro sX hred hne hqs haged
        rcases pa_pick_next_procD sX q hqs hne with ⟨n, hn1, hn2, hn3⟩
        constructor
        · intro hsel
          rw [hred] at hsel ⊢
          rw [hn1] at hsel
          have hnq : n = q := Option.some.inj hsel
          rw [hn2 hnq, haged]
        · intro hsel
          rw [hred] at hsel ⊢
          rw [hn1] at hsel
          have hnq : n ≠ q := fun he => hsel (by rw [he])
          rw [hn3 hnq, haged]
      have hq1 : ((pa_age s).proc q).isSome := by
        rw [proc_pa_age_isSome]
        exact hqsome
      have haged : (pa_age s).procD q = { s.procD q with prio := (s.procD q).prio + 1 } :=
        procD_pa_age_mem s q hq hqsome
      by_cases hage : ((pa_age s).procD c).age < ((pa_age s).procD c).lifespan
      · refine key { pa_age s with readyqueue := (pa_age s).readyqueue.erase c ++ [c] } ?_
          (by simp) hq1 haged
        simp only [pa_schedule, hc]
        rw [if_neg hb, if_pos hage]
      · refine key (pa_age s) ?_ (fun hcon => List.ne_nil_of_mem hq hcon) hq1 haged
        simp only [pa_schedule, hc]
        rw [if_neg hb, if_neg hage]
    · intro hsel
      have hpo : (pa_age s).procD c = s.procD c := procD_pa_age_not_mem s c hnm
      have hcs1 : ((pa_age s).proc c).isSome := by
        rw [proc_pa_age_isSome]
        exact hcsome
      by_cases hage : ((pa_age s).procD c).age < ((pa_age s).procD c).lifespan
      · have hred : pa_schedule s
            = pa_pick_next { pa_age s with readyqueue := (pa_age s).readyqueue.erase c ++ [c] } := by
          simp only [pa_schedule, hc]
          rw [if_neg hb, if_pos hage]
        rcases pa_pick_next_procD
          { pa_age s with readyqueue := (pa_age s).readyqueue.erase c ++ [c] } c hcs1
          (by simp) with ⟨n, hn1, hn2, hn3⟩
        rw [hred] at hsel ⊢
        rw [hn1] at hsel
        have hnc : n = c := Option.some.inj hsel
        rw [hn2 hnc]
        have he : ({ pa_age s with readyqueue := (pa_age s).readyqueue.erase c ++ [c] } : State).procD c
            = (pa_age s).procD c := rfl
        rw [he, hpo]
      · by_cases hrq : s.readyqueue = []
        · have hrq2 : (pa_age s).readyqueue = [] := hrq
          have hred : pa_schedule s = (none, pa_age s) := by
            simp only [pa_schedule, hc]
            rw [if_neg hb, if_neg hage]
            simp only [pa_pick_next, hrq2]
          rw [hred] at hsel
          exact absurd hsel (by simp)
        · have hrq2 : (pa_age s).readyqueue ≠ [] := hrq
          have hred : pa_schedule s = pa_pick_next (pa_age s) := by
            simp only [pa_schedule, hc]
            rw [if_neg hb, if_neg hage]
          rcases pa_pick_next_procD (pa_age s) c hcs1 hrq2 with ⟨n, hn1, hn2, hn3⟩
          rw [hred] at hsel ⊢
          rw [hn1] at hsel
          have hnc : n = c := Option.some.inj hsel
          rw [hn2 hnc, hpo]
  · intro hpick q hqsome
    have hred : pa_schedule s = pa_pick_next s := by
      rcases hpick with h | ⟨c, hc, hbl⟩
      · simp only [pa_schedule, h]
      · simp only [pa_schedule, hc]
        rw [if_pos hbl]
    constructor
    · intro hsel
      by_cases hrq : s.readyqueue = []
      · have he : pa_pick_next s = (none, s) := by
          simp only [pa_pick_next, hrq]
        rw [hred, he] at hsel
        exact absurd hsel (by simp)
      · rcases pa_pick_next_procD s q hqsome hrq with ⟨n, hn1, hn2, hn3⟩
        rw [hred] at hsel ⊢
        rw [hn1] at hsel
        have hnq : n = q := Option.some.inj hsel
        rw [hn2 hnq]
    · intro hq hsel
      rcases pa_pick_next_procD s q hqsome (List.ne_nil_of_mem hq) with ⟨n, hn1, hn2, hn3⟩
      rw [hred] at hsel ⊢
      rw [hn1] at hsel
      have hnq : n ≠ q := fun he => hsel (by rw [he])
      rw [hn3 hnq]

/-- C2 witness: with running pid 9 and ready pids [1, 2], pid 2 ages from 3
to 4 when unselected and pid 9 resets to `prio_orig` when selected; and on
the no-current state `paCex` the selected pid 1 resets to `prio_orig`. -/
theorem C2_pa_aging_witness :
    (((pa_schedule paRun).1 = some 2 →
        ((pa_schedule paRun).2.procD 2).prio = (paRun.procD 2).prio_orig) ∧
      ((pa_schedule paRun).1 ≠ some 2 →
        ((pa_schedule paRun).2.procD 2).prio = (paRun.procD 2).prio + 1)) ∧
    ((pa_schedule paRun).1 = some 9 →
      ((pa_schedule paRun).2.procD 9).prio = (paRun.procD 9).prio_orig) ∧
    ((pa_schedule paCex).1 = some 1 →
      ((pa_schedule paCex).2.procD 1).prio = (paCex.procD 1).prio_orig) :=
  ⟨((C2_pa_aging paRun).1 9 rfl (by decide) (by decide) (by decide)).1 2 (by decide)
      (by decide),
    ((C2_pa_aging paRun).1 9 rfl (by decide) (by decide) (by decide)).2,
    ((C2_pa_aging paCex).2 (Or.inl rfl) 1 (by decide)).1⟩

/-- C3 counterexample: the status–location consistency part of the claim is
false on a reachable STCF trace.  Starting from `c3s0` (pid 1 ready), one
driver tick, a fork of a shorter job (pid 2), and the next schedule call
leave pid 1 in the ready queue with status BLOCKED — not READY — while it
waits in no resource's wait queue. -/
theorem C3_queue_partition_cex :
    1 ∈ c3s3.readyqueue ∧ (c3s3.procD 1).status ≠ Status.READY ∧
    (c3s3.procD 1).status = Status.BLOCKED ∧ wqCount c3s3 1 = 0 := by
  decide

/-- C3 (amended): the membership half of the claim holds — each process
occupies at most one queue position (ready queue or some resource's wait
queue) and the scheduled process occupies none while not marked BLOCKED —
and this invariant (QueueOk) is preserved by every policy's schedule,
acquire, and release operation; the status–location consistency half is
refuted separately. -/
theorem C3_queue_membership_invariant :
    (∀ s, QueueOk s → QueueOk (schedStep fcfs_schedule s)) ∧
    (∀ s, QueueOk s → QueueOk (schedStep sjf_schedule s)) ∧
    (∀ s, QueueOk s → QueueOk (schedStep stcf_schedule s)) ∧
    (∀ s, QueueOk s → QueueOk (schedStep rr_schedule s)) ∧
    (∀ s, QueueOk s → QueueOk (schedStep prio_schedule s)) ∧
    (∀ s, QueueOk s → QueueOk (schedStep pa_schedule s)) ∧
    (∀ s, QueueOk s → QueueOk (schedStep pcp_schedule s)) ∧
    (∀ s rid c b s', s.current = some c → (s.proc c).isSome →
      (s.procD c).status ≠ Status.BLOCKED → fcfs_acquire s rid = some (b, s') →
      QueueOk s → QueueOk s') ∧
    (∀ s rid c b s', s.current = some c → (s.proc c).isSome →
      (s.procD c).status ≠ Status.BLOCKED → prio_acquire s rid = some (b, s') →
      QueueOk s → QueueOk s') ∧
    (∀ s rid c b s', s.current = some c → (s.proc c).isSome →
      (s.procD c).status ≠ Status.BLOCKED → pa_acquire s rid = some (b, s') →
      QueueOk s → QueueOk s') ∧
    (∀ s rid c b s', s.current = some c → (s.proc c).isSome →
      (s.procD c).status ≠ Status.BLOCKED → pcp_acquire s rid = some (b, s') →
      QueueOk s → QueueOk s') ∧
    (∀ s rid c s', s.current = some c → (s.proc c).isSome →
      (s.procD c).status ≠ Status.BLOCKED → fcfs_release s rid = some s' →
      QueueOk s → QueueOk s') ∧
    (∀ s rid c s', s.current = some c → (s.proc c).isSome →
      (s.procD c).status ≠ Status.BLOCKED → prio_release s rid = some s' →
      QueueOk s → QueueOk s') ∧
    (∀ s rid c s', s.current = some c → (s.proc c).isSome →
      (s.procD c).status ≠ Status.BLOCKED → pa_release s rid = some s' →
      QueueOk s → QueueOk s') ∧
    (∀ s rid c s', s.current = some c → (s.proc c).isSome →
      (s.procD c).status ≠ Status.BLOCKED → pcp_release s rid = some s' →
      QueueOk s → QueueOk s') := by
  refine ⟨fun s h => fcfs_schedule_queueOk s h,
    fun s h => sjf_schedule_queueOk s h,
    fun s h => stcf_schedule_queueOk s h,
    fun s h => rr_schedule_queueOk s h,
    fun s h => prio_schedule_queueOk s h,
    fun s h => pa_schedule_queueOk s h,
    fun s h => pcp_schedule_queueOk s h,
    fun s rid c b s' h1 h2 h3 h4 h5 =>
      fcfs_acquire_queueOk s rid c b s' h1 h2 h3 h4 h5,
    fun s rid c b s' h1 h2 h3 h4 h5 =>
      fcfs_acquire_queueOk s rid c b s' h1 h2 h3 (by rw [← prio_acquire_eq]; exact h4) h5,
    fun s rid c b s' h1 h2 h3 h4 h5 =>
      fcfs_acquire_queueOk s rid c b s' h1 h2 h3 (by rw [← pa_acquire_eq]; exact h4) h5,
    fun s rid c b s' h1 h2 h3 h4 h5 =>
      pcp_acquire_queueOk s rid c b s' h1 h2 h3 h4 h5,
    fun s rid c s' h1 h2 h3 h4 h5 =>
      fcfs_release_queueOk s rid c s' h1 h2 h3 h4 h5,
    fun s rid c s' h1 h2 h3 h4 h5 =>
      prio_release_queueOk s rid c s' h1 h2 h3 h4 h5,
    fun s rid c s' h1 h2 h3 h4 h5 =>
      prio_release_queueOk s rid c s' h1 h2 h3 (by rw [← pa_release_eq]; exact h4) h5,
    fun s rid c s' h1 h2 h3 h4 h5 =>
      pcp_release_queueOk s rid c s' h1 h2 h3 h4 h5⟩

/-- C3 witness: the invariant holds of the concrete three-process RR state
and is preserved by the RR schedule call on it. -/
theorem C3_queue_membership_invariant_witness :
    QueueOk rrExample ∧ QueueOk (schedStep rr_schedule rrExample) :=
  ⟨by decide, C3_queue_membership_invariant.2.2.2.1 rrExample (by decide)⟩

end Sched
